import Mathlib

/-!
# Verification of the srec horizon-event scanner (src/app.js)

Shallow embedding of the pass-prediction core of `src/app.js`:
`bisectCrossingTime`, `findMaxElevation` and `computeNextPasses`.

Modelling choices, following the JavaScript semantics:

* The elevation oracle (`elevationDeg` curried with a fixed `satrec` and
  observer) is an opaque function from a timestamp to an elevation or
  `null`; we model it as `ℤ → Option ℚ`.  Timestamps are integers because
  a JavaScript `Date` stores an integral number of milliseconds: the
  `Date` constructor clips its argument with ToIntegerOrInfinity, which
  truncates toward zero (`jsTrunc` below).
* Inside `bisectCrossingTime` the working bounds `a`, `b` and the midpoint
  `m = (a + b) / 2` are JavaScript numbers that become fractional after
  halving; over the magnitudes and iteration counts involved the exact
  rational value is used, so they are modelled as `ℚ`.  The oracle is
  consulted at `new Date(m)`, i.e. at `jsTrunc m`.
* The UI status text is irrelevant to the scan; the one observable
  distinction made by `computeNextPasses` after the scan — the
  "no passes found" message versus the rendered table — is modelled by
  `ScanOutcome`.
-/

set_option maxRecDepth 4000

namespace Srec

/-- The elevation oracle: timestamp (ms) to elevation in degrees, or `none`
when propagation fails (`elevationDeg` returning `null`). -/
abbrev Oracle := ℤ → Option ℚ

/-- JavaScript's ToIntegerOrInfinity on a finite number: truncation toward
zero.  Applied by the `Date` constructor to a possibly fractional
millisecond count. -/
def jsTrunc (q : ℚ) : ℤ := if 0 ≤ q then ⌊q⌋ else ⌈q⌉

/-- The iteration of `bisectCrossingTime` (src/app.js lines 132-146):
working bounds `a`, `b` and the elevation `ea` most recently associated
with `a`.  Each round evaluates the oracle at the midpoint's `Date`
(truncated ms); `null` aborts with `none`; `fa === 0` returns `new Date(a)`
(modelled by `some a`, truncated by the caller); otherwise the half whose
endpoints straddle the target is kept.  Returns the rational value whose
`Date` the JavaScript function would return. -/
def bisectLoop (f : Oracle) (target : ℚ) : ℕ → ℚ → ℚ → ℚ → Option ℚ
  | 0, a, b, _ => some ((a + b) / 2)
  | n + 1, a, b, ea =>
    match f (jsTrunc ((a + b) / 2)) with
    | none => none
    | some em =>
      if ea - target = 0 then some a
      else if (0 < ea - target ∧ 0 < em - target) ∨ (ea - target < 0 ∧ em - target < 0) then
        bisectLoop f target n ((a + b) / 2) b em
      else
        bisectLoop f target n a ((a + b) / 2) ea

/-- Instrumentation of `bisectLoop`: the (truncated) timestamps at which the
loop evaluates the oracle, in evaluation order.  Used to state exactly when
the bisection fails. -/
def bisectMids (f : Oracle) (target : ℚ) : ℕ → ℚ → ℚ → ℚ → List ℤ
  | 0, _, _, _ => []
  | n + 1, a, b, ea =>
    jsTrunc ((a + b) / 2) ::
      match f (jsTrunc ((a + b) / 2)) with
      | none => []
      | some em =>
        if ea - target = 0 then []
        else if (0 < ea - target ∧ 0 < em - target) ∨ (ea - target < 0 ∧ em - target < 0) then
          bisectMids f target n ((a + b) / 2) b em
        else
          bisectMids f target n a ((a + b) / 2) ea

/-- Instrumentation of `bisectLoop`: the working interval after running the
loop (stopping early exactly when the source returns early).  Used to state
the bracketing invariant and the interval-halving property. -/
def bisectLoopIv (f : Oracle) (target : ℚ) : ℕ → ℚ → ℚ → ℚ → Option (ℚ × ℚ)
  | 0, a, b, _ => some (a, b)
  | n + 1, a, b, ea =>
    match f (jsTrunc ((a + b) / 2)) with
    | none => none
    | some em =>
      if ea - target = 0 then some (a, b)
      else if (0 < ea - target ∧ 0 < em - target) ∨ (ea - target < 0 ∧ em - target < 0) then
        bisectLoopIv f target n ((a + b) / 2) b em
      else
        bisectLoopIv f target n a ((a + b) / 2) ea

/-- `bisectCrossingTime` (src/app.js lines 124-148).  Evaluates the oracle
at both endpoints, returns `null` if either is `null`, then runs the
bisection loop; the returned `Date` holds the truncated milliseconds. -/
def bisectCrossingTime (f : Oracle) (t0 t1 : ℤ) (target : ℚ) (iters : ℕ) : Option ℤ :=
  match f t0, f t1 with
  | some ea, some _ => (bisectLoop f target iters (t0 : ℚ) (t1 : ℚ) ea).map jsTrunc
  | _, _ => none

/-- The fallback used by `computeNextPasses` at both crossings
(src/app.js lines 193-195 and 200-202): `bisectCrossingTime(...) || new Date(t)`
— a successful refinement, or else the coarse sample's timestamp. -/
def refineOr (f : Oracle) (t0 t1 : ℤ) : ℤ :=
  (bisectCrossingTime f t0 t1 0 25).getD t1

/-- The sampling loop of `findMaxElevation` (src/app.js lines 155-159):
5-second steps from `ms` to `endMs`, keeping the first-encountered maximum
(strict `>` comparison) of the non-`null` samples. -/
def findMaxLoop (f : Oracle) (endMs : ℤ) (ms : ℤ) (best : ℤ × ℚ) : ℤ × ℚ :=
  if _h : ms ≤ endMs then
    findMaxLoop f endMs (ms + 5000)
      (match f ms with
       | some e => if best.2 < e then (ms, e) else best
       | none => best)
  else best
termination_by (endMs + 1 - ms).toNat
decreasing_by omega

/-- `findMaxElevation` (src/app.js lines 150-161): dense 5-second sampling
between AOS and LOS, starting from the sentinel `{t: aos, elev: -999}`.
Returns `(t, elev)` of the peak. -/
def findMaxElevation (f : Oracle) (aos los : ℤ) : ℤ × ℚ :=
  findMaxLoop f los aos (aos, -999)

/-- A pass record as pushed by `computeNextPasses` (src/app.js lines 206-211). -/
structure Pass where
  aos : ℤ
  los : ℤ
  tca : ℤ
  maxElev : ℚ
deriving DecidableEq, Repr

/-- Assembly of one pass record: `findMaxElevation` between the finalized
AOS and LOS provides TCA and peak elevation (src/app.js lines 205-211). -/
def mkPass (f : Oracle) (aos los : ℤ) : Pass :=
  ⟨aos, los, (findMaxElevation f aos los).1, (findMaxElevation f aos los).2⟩

/-- The coarse scan loop of `computeNextPasses` (src/app.js lines 186-219).
State: current tick `tMs`, previous sample `(prevT, prevE)`, the
`inPass` flag, the candidate AOS, and the accumulated pass list.
A `null` sample is skipped without touching any state (the `continue`
on line 189 precedes the `prevT`/`prevE` update).  An upward crossing sets
`inPass` and the candidate AOS; a downward crossing finalizes the LOS and,
when the candidate exists and is strictly before the LOS, pushes a pass and
stops once `nPasses` are collected. -/
def scanLoop (f : Oracle) (endMs : ℤ) (nPasses : ℕ) (tMs prevT : ℤ) (prevE : ℚ)
    (inPass : Bool) (currentAOS : Option ℤ) (passes : List Pass) : List Pass :=
  if _h : tMs ≤ endMs then
    match f tMs with
    | none => scanLoop f endMs nPasses (tMs + 20000) prevT prevE inPass currentAOS passes
    | some e =>
      let inPass1 : Bool := if inPass = false ∧ prevE ≤ 0 ∧ 0 < e then true else inPass
      let cA1 : Option ℤ :=
        if inPass = false ∧ prevE ≤ 0 ∧ 0 < e then some (refineOr f prevT tMs) else currentAOS
      if inPass1 = true ∧ 0 < prevE ∧ e ≤ 0 then
        match cA1 with
        | some aos =>
          if aos < refineOr f prevT tMs then
            if nPasses ≤ (passes ++ [mkPass f aos (refineOr f prevT tMs)]).length then
              passes ++ [mkPass f aos (refineOr f prevT tMs)]
            else
              scanLoop f endMs nPasses (tMs + 20000) tMs e false none
                (passes ++ [mkPass f aos (refineOr f prevT tMs)])
          else scanLoop f endMs nPasses (tMs + 20000) tMs e false none passes
        | none => scanLoop f endMs nPasses (tMs + 20000) tMs e false none passes
      else
        scanLoop f endMs nPasses (tMs + 20000) tMs e inPass1 cA1 passes
  else passes
termination_by (endMs + 1 - tMs).toNat
decreasing_by all_goals omega

/-- The scan of `computeNextPasses` from its initialization
(src/app.js lines 176-219): the first sample is taken at the window start
with `null` coerced to `-999`; `inPass` is seeded from its sign and, when
already above the horizon, the candidate AOS is the window start. -/
def scanPasses (f : Oracle) (startMs endMs : ℤ) (nPasses : ℕ) : List Pass :=
  scanLoop f endMs nPasses (startMs + 20000) startMs ((f startMs).getD (-999))
    (decide (0 < (f startMs).getD (-999)))
    (if 0 < (f startMs).getD (-999) then some startMs else none) []

/-- The observable outcome of `computeNextPasses`: the "no passes found"
status message (src/app.js lines 221-224), or the rendered pass table. -/
inductive ScanOutcome
  | noPasses
  | found (passes : List Pass)
deriving DecidableEq, Repr

/-- `computeNextPasses` (src/app.js lines 168-257) restricted to its
observable result: scan the window `[start, start + searchHours*3600*1000]`
in 20-second steps and report either "no passes" or the pass list. -/
def computeNextPasses (f : Oracle) (startMs : ℤ) (searchHours : ℤ) (nPasses : ℕ) :
    ScanOutcome :=
  if (scanPasses f startMs (startMs + searchHours * 3600 * 1000) nPasses).isEmpty then
    ScanOutcome.noPasses
  else
    ScanOutcome.found (scanPasses f startMs (startMs + searchHours * 3600 * 1000) nPasses)

/-- The 5-second sampling grid of `findMaxElevation` over a bracket:
`aos`, `aos + 5000`, ... up to `los`. -/
def onFineGrid (aos los t : ℤ) : Prop := aos ≤ t ∧ t ≤ los ∧ 5000 ∣ t - aos

/-- The shape invariants that actually hold of every emitted pass record
(see the theorems for claim C1). -/
def PassOK (f : Oracle) (p : Pass) : Prop :=
  p.aos < p.los ∧ p.aos ≤ p.tca ∧ p.tca ≤ p.los ∧ -999 ≤ p.maxElev ∧
    ((∃ t e, onFineGrid p.aos p.los t ∧ f t = some e ∧ 0 ≤ e) → 0 ≤ p.maxElev)

/-- A single-arc elevation profile: below the horizon up to `c`, strictly
above it strictly between `c` and `d`, and below it from `d` on.  The
discrete analogue of one sine-like pass. -/
def SingleArc (g : ℤ → ℚ) (c d : ℤ) : Prop :=
  (∀ t, t ≤ c → g t ≤ 0) ∧ (∀ t, c < t → t < d → 0 < g t) ∧ (∀ t, d ≤ t → g t ≤ 0)

/-- The gappy modification of an oracle: `null` at every other coarse
sample instant (each `startMs + 20000 + k*40000`), unchanged elsewhere. -/
def gappy (f : Oracle) (startMs : ℤ) : Oracle :=
  fun t => if (t - startMs) % 40000 = 20000 then none else f t

/-! ### Concrete synthetic oracles used in counterexamples and witnesses -/

/-- Above the horizon at the single instant 40000 only. -/
def oracleSpike : Oracle := fun t => if t = 40000 then some 1 else some (-1)

/-- A ramp from 1 up to 20000 degrees on `[40000, 59999]`, below the
horizon elsewhere. -/
def oracleRamp : Oracle :=
  fun t => if t < 40000 then some (-1) else if t < 60000 then some ((t : ℚ) - 39999) else
    some (-1)

/-- Constantly above the horizon. -/
def oracleAlwaysUp : Oracle := fun _ => some 1

/-- Constantly below the horizon. -/
def oracleAlwaysDown : Oracle := fun _ => some (-1)

/-- Resolvable only at the 20-second coarse ticks, above the horizon
exactly at ticks 20000 and 60000: two one-tick passes. -/
def oracleTicksOnly : Oracle :=
  fun t => if t % 20000 = 0 then
    (if t = 20000 ∨ t = 60000 then some 1 else some (-1)) else none

/-- Unresolvable at the window start, above the horizon at the first
resolvable sample (t = 20000). -/
def oracleGapStart : Oracle :=
  fun t => if t = 20000 then some 5 else if t = 40000 then some (-1) else none

/-- Above the horizon at the window start and the first tick, below at
40000, unresolvable elsewhere. -/
def oracleStartHigh : Oracle :=
  fun t => if t = 0 ∨ t = 20000 then some 1 else if t = 40000 then some (-1) else none

/-- A step profile rising at t = 30000. -/
def oracleStep : Oracle := fun t => if t < 30000 then some (-1) else some 1

/-- A wide single arc: above the horizon on `(24999, 130000)`. -/
def oracleArc : Oracle :=
  fun t => if t < 25000 then some (-1) else if t < 130000 then some 1 else some (-1)

/-- The elevation profile underlying `oracleArc`. -/
def arcElev : ℤ → ℚ :=
  fun t => if t < 25000 then -1 else if t < 130000 then 1 else -1

/-! ## Basic facts about `jsTrunc` -/

theorem le_jsTrunc (lo : ℤ) (x : ℚ) (h : (lo : ℚ) ≤ x) : lo ≤ jsTrunc x := by
  unfold jsTrunc
  split
  · exact Int.le_floor.mpr h
  · exact_mod_cast h.trans (Int.le_ceil x)

theorem jsTrunc_le (hi : ℤ) (x : ℚ) (h : x ≤ (hi : ℚ)) : jsTrunc x ≤ hi := by
  unfold jsTrunc
  split
  · exact_mod_cast (Int.floor_le x).trans h
  · exact Int.ceil_le.mpr h

theorem jsTrunc_of_nonneg (x : ℚ) (h : 0 ≤ x) : jsTrunc x = ⌊x⌋ := by
  unfold jsTrunc
  exact if_pos h

/-! ## Range invariants of the bisection: the refined time never leaves the
supplied bracket. -/

theorem bisectLoop_range (f : Oracle) (target : ℚ) (lo hi : ℚ) :
    ∀ (n : ℕ) (a b ea r : ℚ), lo ≤ a → a ≤ b → b ≤ hi →
      bisectLoop f target n a b ea = some r → lo ≤ r ∧ r ≤ hi := by
  intro n
  induction n with
  | zero =>
    intro a b ea r ha hab hb hr
    rw [bisectLoop] at hr
    obtain rfl : (a + b) / 2 = r := Option.some.inj hr
    constructor <;> linarith
  | succ n ih =>
    intro a b ea r ha hab hb hr
    rw [bisectLoop] at hr
    split at hr
    · exact absurd hr (by simp)
    next em hm =>
      split at hr
      · obtain rfl : a = r := Option.some.inj hr
        exact ⟨ha, le_trans hab hb⟩
      · split at hr
        · exact ih ((a + b) / 2) b em r (by linarith) (by linarith) hb hr
        · exact ih a ((a + b) / 2) ea r ha (by linarith) (by linarith) hr

theorem bisectLoopIv_range (f : Oracle) (target : ℚ) (lo hi : ℚ) :
    ∀ (n : ℕ) (a b ea a' b' : ℚ), lo ≤ a → a ≤ b → b ≤ hi →
      bisectLoopIv f target n a b ea = some (a', b') →
      lo ≤ a' ∧ a' ≤ b' ∧ b' ≤ hi := by
  intro n
  induction n with
  | zero =>
    intro a b ea a' b' ha hab hb hr
    rw [bisectLoopIv] at hr
    simp only [Option.some.injEq, Prod.mk.injEq] at hr
    obtain ⟨rfl, rfl⟩ := hr
    exact ⟨ha, hab, hb⟩
  | succ n ih =>
    intro a b ea a' b' ha hab hb hr
    rw [bisectLoopIv] at hr
    split at hr
    · exact absurd hr (by simp)
    next em hm =>
      split at hr
      · simp only [Option.some.injEq, Prod.mk.injEq] at hr
        obtain ⟨rfl, rfl⟩ := hr
        exact ⟨ha, hab, hb⟩
      · split at hr
        · exact ih ((a + b) / 2) b em a' b' (by linarith) (by linarith) hb hr
        · exact ih a ((a + b) / 2) ea a' b' ha (by linarith) (by linarith) hr

theorem bisectCrossingTime_range (f : Oracle) (t0 t1 : ℤ) (target : ℚ) (iters : ℕ)
    (h : t0 ≤ t1) (r : ℤ) (hr : bisectCrossingTime f t0 t1 target iters = some r) :
    t0 ≤ r ∧ r ≤ t1 := by
  unfold bisectCrossingTime at hr
  split at hr
  next ea eb h0 h1 =>
    rcases hq : bisectLoop f target iters (t0 : ℚ) (t1 : ℚ) ea with _ | q <;>
      rw [hq] at hr
    · exact absurd hr (by simp)
    · obtain rfl : jsTrunc q = r := by simpa using hr
      have hb := bisectLoop_range f target (t0 : ℚ) (t1 : ℚ) iters
        (t0 : ℚ) (t1 : ℚ) ea q le_rfl (by exact_mod_cast h) le_rfl hq
      exact ⟨le_jsTrunc t0 q hb.1, jsTrunc_le t1 q hb.2⟩
  next => exact absurd hr (by simp)

theorem refineOr_range (f : Oracle) (t0 t1 : ℤ) (h : t0 ≤ t1) :
    t0 ≤ refineOr f t0 t1 ∧ refineOr f t0 t1 ≤ t1 := by
  unfold refineOr
  rcases hb : bisectCrossingTime f t0 t1 0 25 with _ | r
  · exact ⟨h, le_rfl⟩
  · exact bisectCrossingTime_range f t0 t1 0 25 h r hb

/-! ## Exact bisection results when the sign flip sits at the right end of
the bracket.  When every integer strictly inside the bracket is on the same
side as the left endpoint, every iteration moves the left bound, and after
`n` rounds the interval is `[t1 - (t1-t0)/2^n, t1]`; the returned `Date`
truncates to `t1 - 1`. -/

theorem bisectLoop_march_neg (f : Oracle) (t0 t1 : ℤ) (h0 : 0 ≤ t0)
    (hneg : ∀ t : ℤ, t0 ≤ t → t < t1 → ∃ e, f t = some e ∧ e < 0) :
    ∀ (n : ℕ) (a ea : ℚ), (t0 : ℚ) ≤ a → a < (t1 : ℚ) → ea < 0 →
      bisectLoop f 0 n a (t1 : ℚ) ea = some ((t1 : ℚ) - ((t1 : ℚ) - a) / 2 ^ (n + 1)) := by
  intro n
  induction n with
  | zero =>
    intro a ea ha hb hea
    rw [bisectLoop]
    congr 1
    ring
  | succ n ih =>
    intro a ea ha hb hea
    rw [bisectLoop]
    have hm0 : (0 : ℚ) ≤ (a + t1) / 2 := by
      have : (0 : ℚ) ≤ t0 := by exact_mod_cast h0
      linarith
    have hml : (t0 : ℚ) ≤ (a + t1) / 2 := by linarith
    have hmr : (a + t1) / 2 < (t1 : ℚ) := by linarith
    have htr : jsTrunc ((a + t1) / 2) = ⌊(a + t1) / 2⌋ := jsTrunc_of_nonneg _ hm0
    obtain ⟨e, he, helt⟩ := hneg ⌊(a + t1) / 2⌋ (Int.le_floor.mpr hml)
      (Int.floor_lt.mpr hmr)
    simp only [htr, he]
    rw [if_neg (by simpa using hea.ne), if_pos (Or.inr ⟨by simpa using hea, by simpa using helt⟩)]
    rw [ih ((a + t1) / 2) e hml hmr helt]
    congr 1
    field_simp
    ring

theorem bisectLoop_march_pos (f : Oracle) (t0 t1 : ℤ) (h0 : 0 ≤ t0)
    (hpos : ∀ t : ℤ, t0 ≤ t → t < t1 → ∃ e, f t = some e ∧ 0 < e) :
    ∀ (n : ℕ) (a ea : ℚ), (t0 : ℚ) ≤ a → a < (t1 : ℚ) → 0 < ea →
      bisectLoop f 0 n a (t1 : ℚ) ea = some ((t1 : ℚ) - ((t1 : ℚ) - a) / 2 ^ (n + 1)) := by
  intro n
  induction n with
  | zero =>
    intro a ea ha hb hea
    rw [bisectLoop]
    congr 1
    ring
  | succ n ih =>
    intro a ea ha hb hea
    rw [bisectLoop]
    have hm0 : (0 : ℚ) ≤ (a + t1) / 2 := by
      have : (0 : ℚ) ≤ t0 := by exact_mod_cast h0
      linarith
    have hml : (t0 : ℚ) ≤ (a + t1) / 2 := by linarith
    have hmr : (a + t1) / 2 < (t1 : ℚ) := by linarith
    have htr : jsTrunc ((a + t1) / 2) = ⌊(a + t1) / 2⌋ := jsTrunc_of_nonneg _ hm0
    obtain ⟨e, he, helt⟩ := hpos ⌊(a + t1) / 2⌋ (Int.le_floor.mpr hml)
      (Int.floor_lt.mpr hmr)
    simp only [htr, he]
    rw [if_neg (by simpa using hea.ne'), if_pos (Or.inl ⟨by simpa using hea, by simpa using helt⟩)]
    rw [ih ((a + t1) / 2) e hml hmr helt]
    congr 1
    field_simp
    ring

/-- Upward crossing exactly at the right end of the bracket: all integers in
`[t0, t1)` are strictly below the horizon, so the 25-round bisection returns
the `Date` of `t1 - (t1-t0)/2^26`, which truncates to `t1 - 1`. -/
theorem bisectCrossingTime_march_neg (f : Oracle) (t0 t1 : ℤ) (h0 : 0 ≤ t0)
    (hlt : t0 < t1) (hw : t1 - t0 ≤ 2 ^ 26) (eb : ℚ) (hb : f t1 = some eb)
    (hneg : ∀ t : ℤ, t0 ≤ t → t < t1 → ∃ e, f t = some e ∧ e < 0) :
    bisectCrossingTime f t0 t1 0 25 = some (t1 - 1) := by
  obtain ⟨ea, hea, healt⟩ := hneg t0 le_rfl hlt
  unfold bisectCrossingTime
  simp only [hea, hb]
  rw [bisectLoop_march_neg f t0 t1 h0 hneg 25 (t0 : ℚ) ea le_rfl (by exact_mod_cast hlt) healt]
  have hx1 : ((t1 : ℚ) - t0) / 2 ^ 26 ≤ 1 := by
    rw [div_le_one (by positivity)]
    have : ((t1 : ℚ) - t0) ≤ ((2 : ℚ)) ^ 26 := by exact_mod_cast hw
    simpa using this
  have hx0 : 0 < ((t1 : ℚ) - t0) / 2 ^ 26 := by
    have : (0 : ℚ) < (t1 : ℚ) - t0 := by
      have : (t0 : ℚ) < t1 := by exact_mod_cast hlt
      linarith
    positivity
  have hnn : (0 : ℚ) ≤ (t1 : ℚ) - ((t1 : ℚ) - t0) / 2 ^ 26 := by
    have h0q : (0 : ℚ) ≤ (t0 : ℚ) := by exact_mod_cast h0
    have h1q : (t0 : ℚ) < t1 := by exact_mod_cast hlt
    linarith
  simp only [Option.map_some', Option.some.injEq]
  rw [jsTrunc_of_nonneg _ hnn]
  rw [Int.floor_eq_iff]
  constructor
  · push_cast
    linarith
  · push_cast
    linarith

/-- Downward crossing exactly at the right end of the bracket: all integers
in `[t0, t1)` are strictly above the horizon, so the 25-round bisection
returns the `Date` of `t1 - (t1-t0)/2^26`, truncating to `t1 - 1`. -/
theorem bisectCrossingTime_march_pos (f : Oracle) (t0 t1 : ℤ) (h0 : 0 ≤ t0)
    (hlt : t0 < t1) (hw : t1 - t0 ≤ 2 ^ 26) (eb : ℚ) (hb : f t1 = some eb)
    (hpos : ∀ t : ℤ, t0 ≤ t → t < t1 → ∃ e, f t = some e ∧ 0 < e) :
    bisectCrossingTime f t0 t1 0 25 = some (t1 - 1) := by
  obtain ⟨ea, hea, healt⟩ := hpos t0 le_rfl hlt
  unfold bisectCrossingTime
  simp only [hea, hb]
  rw [bisectLoop_march_pos f t0 t1 h0 hpos 25 (t0 : ℚ) ea le_rfl (by exact_mod_cast hlt) healt]
  have hx1 : ((t1 : ℚ) - t0) / 2 ^ 26 ≤ 1 := by
    rw [div_le_one (by positivity)]
    have : ((t1 : ℚ) - t0) ≤ ((2 : ℚ)) ^ 26 := by exact_mod_cast hw
    simpa using this
  have hx0 : 0 < ((t1 : ℚ) - t0) / 2 ^ 26 := by
    have : (0 : ℚ) < (t1 : ℚ) - t0 := by
      have : (t0 : ℚ) < t1 := by exact_mod_cast hlt
      linarith
    positivity
  have hnn : (0 : ℚ) ≤ (t1 : ℚ) - ((t1 : ℚ) - t0) / 2 ^ 26 := by
    have h0q : (0 : ℚ) ≤ (t0 : ℚ) := by exact_mod_cast h0
    have h1q : (t0 : ℚ) < t1 := by exact_mod_cast hlt
    linarith
  simp only [Option.map_some', Option.some.injEq]
  rw [jsTrunc_of_nonneg _ hnn]
  rw [Int.floor_eq_iff]
  constructor
  · push_cast
    linarith
  · push_cast
    linarith

/-! ## Convergence of the bisection toward a single discrete sign change.
If every integer of the bracket below `c` is strictly on the starting side
and every integer from `c` on is on the other side, the working interval
always satisfies `a < c ≤ b`, halving exactly once per round. -/

theorem bisectLoop_conv_neg (f : Oracle) (t0 t1 c : ℤ) (h00 : 0 ≤ t0)
    (hneg : ∀ t : ℤ, t0 ≤ t → t < c → ∃ e, f t = some e ∧ e < 0)
    (hpos : ∀ t : ℤ, c ≤ t → t ≤ t1 → ∃ e, f t = some e ∧ 0 ≤ e) :
    ∀ (n : ℕ) (a b ea : ℚ), (t0 : ℚ) ≤ a → a < (c : ℚ) → (c : ℚ) ≤ b → b ≤ (t1 : ℚ) →
      ea < 0 →
      ∃ a' b', bisectLoop f 0 n a b ea = some ((a' + b') / 2) ∧
        (t0 : ℚ) ≤ a' ∧ a' < (c : ℚ) ∧ (c : ℚ) ≤ b' ∧ b' ≤ (t1 : ℚ) ∧
        b' - a' = (b - a) / 2 ^ n := by
  intro n
  induction n with
  | zero =>
    intro a b ea ha hac hcb hb hea
    exact ⟨a, b, by rw [bisectLoop], ha, hac, hcb, hb, by norm_num⟩
  | succ n ih =>
    intro a b ea ha hac hcb hb hea
    have hcq : (0 : ℚ) ≤ (t0 : ℚ) := by exact_mod_cast h00
    have hab : a < b := lt_of_lt_of_le hac hcb
    have hm0 : (0 : ℚ) ≤ (a + b) / 2 := by linarith
    have hml : (t0 : ℚ) ≤ (a + b) / 2 := by linarith
    have hmr : (a + b) / 2 ≤ (t1 : ℚ) := by linarith
    have htr : jsTrunc ((a + b) / 2) = ⌊(a + b) / 2⌋ := jsTrunc_of_nonneg _ hm0
    rw [bisectLoop, htr]
    by_cases hside : ⌊(a + b) / 2⌋ < c
    · obtain ⟨e, he, helt⟩ := hneg ⌊(a + b) / 2⌋ (Int.le_floor.mpr hml) hside
      simp only [he]
      rw [if_neg (by simpa using hea.ne),
        if_pos (Or.inr ⟨by simpa using hea, by simpa using helt⟩)]
      have hmc : (a + b) / 2 < (c : ℚ) := by
        calc (a + b) / 2 < (⌊(a + b) / 2⌋ : ℚ) + 1 := Int.lt_floor_add_one _
        _ ≤ (c : ℚ) := by exact_mod_cast hside
      obtain ⟨a', b', hres, h1, h2, h3, h4, h5⟩ := ih ((a + b) / 2) b e hml hmc hcb hb helt
      refine ⟨a', b', hres, h1, h2, h3, h4, ?_⟩
      rw [h5]
      field_simp
      ring
    · push_neg at hside
      obtain ⟨e, he, helt⟩ := hpos ⌊(a + b) / 2⌋ hside (by
        exact_mod_cast (Int.floor_le ((a + b) / 2)).trans hmr)
      simp only [he]
      rw [if_neg (by simpa using hea.ne),
        if_neg (by rintro (⟨x1, x2⟩ | ⟨x1, x2⟩) <;> linarith)]
      have hcm : (c : ℚ) ≤ (a + b) / 2 := by
        calc (c : ℚ) ≤ (⌊(a + b) / 2⌋ : ℚ) := by exact_mod_cast hside
        _ ≤ (a + b) / 2 := Int.floor_le _
      obtain ⟨a', b', hres, h1, h2, h3, h4, h5⟩ := ih a ((a + b) / 2) ea ha hac hcm hmr hea
      refine ⟨a', b', hres, h1, h2, h3, h4, ?_⟩
      rw [h5]
      field_simp
      ring

theorem bisectLoop_conv_pos (f : Oracle) (t0 t1 c : ℤ) (h00 : 0 ≤ t0)
    (hpos : ∀ t : ℤ, t0 ≤ t → t < c → ∃ e, f t = some e ∧ 0 < e)
    (hneg : ∀ t : ℤ, c ≤ t → t ≤ t1 → ∃ e, f t = some e ∧ e ≤ 0) :
    ∀ (n : ℕ) (a b ea : ℚ), (t0 : ℚ) ≤ a → a < (c : ℚ) → (c : ℚ) ≤ b → b ≤ (t1 : ℚ) →
      0 < ea →
      ∃ a' b', bisectLoop f 0 n a b ea = some ((a' + b') / 2) ∧
        (t0 : ℚ) ≤ a' ∧ a' < (c : ℚ) ∧ (c : ℚ) ≤ b' ∧ b' ≤ (t1 : ℚ) ∧
        b' - a' = (b - a) / 2 ^ n := by
  intro n
  induction n with
  | zero =>
    intro a b ea ha hac hcb hb hea
    exact ⟨a, b, by rw [bisectLoop], ha, hac, hcb, hb, by norm_num⟩
  | succ n ih =>
    intro a b ea ha hac hcb hb hea
    have hcq : (0 : ℚ) ≤ (t0 : ℚ) := by exact_mod_cast h00
    have hab : a < b := lt_of_lt_of_le hac hcb
    have hm0 : (0 : ℚ) ≤ (a + b) / 2 := by linarith
    have hml : (t0 : ℚ) ≤ (a + b) / 2 := by linarith
    have hmr : (a + b) / 2 ≤ (t1 : ℚ) := by linarith
    have htr : jsTrunc ((a + b) / 2) = ⌊(a + b) / 2⌋ := jsTrunc_of_nonneg _ hm0
    rw [bisectLoop, htr]
    by_cases hside : ⌊(a + b) / 2⌋ < c
    · obtain ⟨e, he, helt⟩ := hpos ⌊(a + b) / 2⌋ (Int.le_floor.mpr hml) hside
      simp only [he]
      rw [if_neg (by simpa using hea.ne'),
        if_pos (Or.inl ⟨by simpa using hea, by simpa using helt⟩)]
      have hmc : (a + b) / 2 < (c : ℚ) := by
        calc (a + b) / 2 < (⌊(a + b) / 2⌋ : ℚ) + 1 := Int.lt_floor_add_one _
        _ ≤ (c : ℚ) := by exact_mod_cast hside
      obtain ⟨a', b', hres, h1, h2, h3, h4, h5⟩ := ih ((a + b) / 2) b e hml hmc hcb hb helt
      refine ⟨a', b', hres, h1, h2, h3, h4, ?_⟩
      rw [h5]
      field_simp
      ring
    · push_neg at hside
      obtain ⟨e, he, helt⟩ := hneg ⌊(a + b) / 2⌋ hside (by
        exact_mod_cast (Int.floor_le ((a + b) / 2)).trans hmr)
      simp only [he]
      rw [if_neg (by simpa using hea.ne'),
        if_neg (by rintro (⟨x1, x2⟩ | ⟨x1, x2⟩) <;> linarith)]
      have hcm : (c : ℚ) ≤ (a + b) / 2 := by
        calc (c : ℚ) ≤ (⌊(a + b) / 2⌋ : ℚ) := by exact_mod_cast hside
        _ ≤ (a + b) / 2 := Int.floor_le _
      obtain ⟨a', b', hres, h1, h2, h3, h4, h5⟩ := ih a ((a + b) / 2) ea ha hac hcm hmr hea
      refine ⟨a', b', hres, h1, h2, h3, h4, ?_⟩
      rw [h5]
      field_simp
      ring

/-- The refined `Date` for a single upward sign change at the integer `c`:
with a bracket of width at most `2^25` ms, the result is `c - 1` or `c`. -/
theorem bisectCrossingTime_conv_neg (f : Oracle) (t0 t1 c : ℤ) (h00 : 0 ≤ t0)
    (htc : t0 < c) (hct : c ≤ t1) (hw : t1 - t0 ≤ 2 ^ 25)
    (hneg : ∀ t : ℤ, t0 ≤ t → t < c → ∃ e, f t = some e ∧ e < 0)
    (hpos : ∀ t : ℤ, c ≤ t → t ≤ t1 → ∃ e, f t = some e ∧ 0 ≤ e) :
    ∃ r, bisectCrossingTime f t0 t1 0 25 = some r ∧ c - 1 ≤ r ∧ r ≤ c := by
  obtain ⟨ea, hea, healt⟩ := hneg t0 le_rfl htc
  obtain ⟨eb, heb, _⟩ := hpos t1 hct le_rfl
  obtain ⟨a', b', hres, h1, h2, h3, h4, h5⟩ :=
    bisectLoop_conv_neg f t0 t1 c h00 hneg hpos 25 (t0 : ℚ) (t1 : ℚ) ea le_rfl
      (by exact_mod_cast htc) (by exact_mod_cast hct) le_rfl healt
  have hwq : b' - a' ≤ 1 := by
    rw [h5, div_le_one (by positivity)]
    have : ((t1 : ℚ) - t0) ≤ ((2 : ℚ)) ^ 25 := by exact_mod_cast hw
    simpa using this
  have hcl : (c : ℚ) - 1 ≤ (a' + b') / 2 := by linarith
  have hcu : (a' + b') / 2 < (c : ℚ) + 1 := by linarith
  have hm0 : (0 : ℚ) ≤ (a' + b') / 2 := by
    have : (0 : ℚ) ≤ (t0 : ℚ) := by exact_mod_cast h00
    linarith
  refine ⟨jsTrunc ((a' + b') / 2), ?_, ?_, ?_⟩
  · unfold bisectCrossingTime
    simp only [hea, heb, hres, Option.map_some']
  · exact le_jsTrunc (c - 1) _ (by push_cast; linarith)
  · rw [jsTrunc_of_nonneg _ hm0]
    have : ⌊(a' + b') / 2⌋ < c + 1 := Int.floor_lt.mpr (by push_cast; linarith)
    omega

/-- The refined `Date` for a single downward sign change at the integer `c`:
with a bracket of width at most `2^25` ms, the result is `c - 1` or `c`. -/
theorem bisectCrossingTime_conv_pos (f : Oracle) (t0 t1 c : ℤ) (h00 : 0 ≤ t0)
    (htc : t0 < c) (hct : c ≤ t1) (hw : t1 - t0 ≤ 2 ^ 25)
    (hpos : ∀ t : ℤ, t0 ≤ t → t < c → ∃ e, f t = some e ∧ 0 < e)
    (hneg : ∀ t : ℤ, c ≤ t → t ≤ t1 → ∃ e, f t = some e ∧ e ≤ 0) :
    ∃ r, bisectCrossingTime f t0 t1 0 25 = some r ∧ c - 1 ≤ r ∧ r ≤ c := by
  obtain ⟨ea, hea, healt⟩ := hpos t0 le_rfl htc
  obtain ⟨eb, heb, _⟩ := hneg t1 hct le_rfl
  obtain ⟨a', b', hres, h1, h2, h3, h4, h5⟩ :=
    bisectLoop_conv_pos f t0 t1 c h00 hpos hneg 25 (t0 : ℚ) (t1 : ℚ) ea le_rfl
      (by exact_mod_cast htc) (by exact_mod_cast hct) le_rfl healt
  have hwq : b' - a' ≤ 1 := by
    rw [h5, div_le_one (by positivity)]
    have : ((t1 : ℚ) - t0) ≤ ((2 : ℚ)) ^ 25 := by exact_mod_cast hw
    simpa using this
  have hcl : (c : ℚ) - 1 ≤ (a' + b') / 2 := by linarith
  have hcu : (a' + b') / 2 < (c : ℚ) + 1 := by linarith
  have hm0 : (0 : ℚ) ≤ (a' + b') / 2 := by
    have : (0 : ℚ) ≤ (t0 : ℚ) := by exact_mod_cast h00
    linarith
  refine ⟨jsTrunc ((a' + b') / 2), ?_, ?_, ?_⟩
  · unfold bisectCrossingTime
    simp only [hea, heb, hres, Option.map_some']
  · exact le_jsTrunc (c - 1) _ (by push_cast; linarith)
  · rw [jsTrunc_of_nonneg _ hm0]
    have : ⌊(a' + b') / 2⌋ < c + 1 := Int.floor_lt.mpr (by push_cast; linarith)
    omega

/-! ## Claim C10: the refinement never leaves the supplied bracket. -/

/-- C10: for every pair of timestamps `t0 < t1` and every oracle, a
non-`null` result of `bisectCrossingTime` lies in `[t0, t1]`, and after any
number of iterations the working bounds `a`, `b` satisfy
`t0 ≤ a ≤ b ≤ t1`. -/
theorem bisect_stays_in_bracket (f : Oracle) (t0 t1 : ℤ) (target : ℚ) (iters : ℕ)
    (h : t0 < t1) :
    (∀ r, bisectCrossingTime f t0 t1 target iters = some r → t0 ≤ r ∧ r ≤ t1) ∧
    (∀ (ea : ℚ) (n : ℕ) (a b : ℚ), f t0 = some ea →
      bisectLoopIv f target n (t0 : ℚ) (t1 : ℚ) ea = some (a, b) →
      (t0 : ℚ) ≤ a ∧ a ≤ b ∧ b ≤ (t1 : ℚ)) := by
  constructor
  · intro r hr
    exact bisectCrossingTime_range f t0 t1 target iters h.le r hr
  · intro ea n a b _ hab
    exact bisectLoopIv_range f target (t0 : ℚ) (t1 : ℚ) n (t0 : ℚ) (t1 : ℚ) ea a b
      le_rfl (by exact_mod_cast h.le) le_rfl hab

/-- The bisection on `oracleSpike` between the coarse samples 20000 and
40000: every integer below 40000 is below the horizon, so the left bound
marches all 25 rounds and the refined AOS is 39999. -/
theorem oracleSpike_bisect_up :
    bisectCrossingTime oracleSpike 20000 40000 0 25 = some 39999 := by
  have h := bisectCrossingTime_march_neg oracleSpike 20000 40000 (by norm_num) (by norm_num)
    (by norm_num) 1 (by simp [oracleSpike])
    (by
      intro t h1 h2
      exact ⟨-1, by simp [oracleSpike, show t ≠ 40000 by omega], by norm_num⟩)
  simpa using h

/-- Witness for C10 at a concrete input: the refined time 39999 of
`oracleSpike` indeed stays within the bracket `[20000, 40000]`. -/
theorem bisect_stays_in_bracket_witness :
    bisectCrossingTime oracleSpike 20000 40000 0 25 = some 39999 ∧
      (20000 : ℤ) ≤ 39999 ∧ (39999 : ℤ) ≤ 40000 := by
  refine ⟨oracleSpike_bisect_up, ?_⟩
  exact (bisect_stays_in_bracket oracleSpike 20000 40000 0 25 (by norm_num)).1
    39999 oracleSpike_bisect_up

/-! ## Claim C3: convergence of the 25-round bisection. -/

/-- C3: for a synthetic oracle with a single discrete sign change at `c`
inside the bracket (negative strictly below `c`, non-negative from `c` on),
the 25-round bisection refines the crossing to within one second (in fact
within one millisecond) for brackets of up to an hour, and the final
bracketing interval has width exactly `(t1 - t0) / 2^25`. -/
theorem bisect_converges_to_crossing (f : Oracle) (t0 t1 c : ℤ)
    (h00 : 0 ≤ t0) (htc : t0 < c) (hct : c ≤ t1) (hw : t1 - t0 ≤ 3600000)
    (hneg : ∀ t : ℤ, t0 ≤ t → t < c → ∃ e, f t = some e ∧ e < 0)
    (hpos : ∀ t : ℤ, c ≤ t → t ≤ t1 → ∃ e, f t = some e ∧ 0 ≤ e) :
    (∃ r, bisectCrossingTime f t0 t1 0 25 = some r ∧ |r - c| ≤ 1000) ∧
    (∃ ea a b, f t0 = some ea ∧
      bisectLoop f 0 25 (t0 : ℚ) (t1 : ℚ) ea = some ((a + b) / 2) ∧
      b - a = ((t1 : ℚ) - (t0 : ℚ)) / 2 ^ 25) := by
  have hw' : t1 - t0 ≤ 2 ^ 25 := by omega
  constructor
  · obtain ⟨r, hr, h1, h2⟩ :=
      bisectCrossingTime_conv_neg f t0 t1 c h00 htc hct hw' hneg hpos
    exact ⟨r, hr, by rw [abs_le]; omega⟩
  · obtain ⟨ea, hea, healt⟩ := hneg t0 le_rfl htc
    obtain ⟨a', b', hres, _, _, _, _, h5⟩ :=
      bisectLoop_conv_neg f t0 t1 c h00 hneg hpos 25 (t0 : ℚ) (t1 : ℚ) ea le_rfl
        (by exact_mod_cast htc) (by exact_mod_cast hct) le_rfl healt
    exact ⟨ea, a', b', hea, hres, h5⟩

/-- Witness for C3 at a concrete input: `oracleStep` crosses upward at
30000 between the samples 20000 and 40000. -/
theorem bisect_converges_to_crossing_witness :
    (∃ r, bisectCrossingTime oracleStep 20000 40000 0 25 = some r ∧ |r - 30000| ≤ 1000) ∧
    (∃ ea a b, oracleStep 20000 = some ea ∧
      bisectLoop oracleStep 0 25 (20000 : ℚ) (40000 : ℚ) ea = some ((a + b) / 2) ∧
      b - a = ((40000 : ℚ) - (20000 : ℚ)) / 2 ^ 25) := by
  have h := bisect_converges_to_crossing oracleStep 20000 40000 30000
    (by norm_num) (by norm_num) (by norm_num) (by norm_num)
    (by
      intro t h1 h2
      exact ⟨-1, by simp [oracleStep, h2], by norm_num⟩)
    (by
      intro t h1 h2
      exact ⟨1, by simp [oracleStep, show ¬t < 30000 by omega], by norm_num⟩)
  exact_mod_cast h

/-! ## One-step unfolding lemmas for the coarse scan loop. -/

theorem scanLoop_stop (f : Oracle) (endMs : ℤ) (n : ℕ) (tMs prevT : ℤ) (prevE : ℚ)
    (inPass : Bool) (cA : Option ℤ) (ps : List Pass) (h : ¬tMs ≤ endMs) :
    scanLoop f endMs n tMs prevT prevE inPass cA ps = ps := by
  rw [scanLoop, dif_neg h]

theorem scanLoop_step_none (f : Oracle) (endMs : ℤ) (n : ℕ) (tMs prevT : ℤ) (prevE : ℚ)
    (inPass : Bool) (cA : Option ℤ) (ps : List Pass) (h : tMs ≤ endMs)
    (hfm : f tMs = none) :
    scanLoop f endMs n tMs prevT prevE inPass cA ps =
      scanLoop f endMs n (tMs + 20000) prevT prevE inPass cA ps := by
  rw [scanLoop, dif_pos h]
  simp only [hfm]

theorem scanLoop_step_quiet (f : Oracle) (endMs : ℤ) (n : ℕ) (tMs prevT : ℤ)
    (prevE : ℚ) (inPass : Bool) (cA : Option ℤ) (ps : List Pass) (e : ℚ)
    (h : tMs ≤ endMs) (hfm : f tMs = some e)
    (hnoup : inPass = false → ¬(prevE ≤ 0 ∧ 0 < e))
    (hnodown : inPass = true → ¬(0 < prevE ∧ e ≤ 0)) :
    scanLoop f endMs n tMs prevT prevE inPass cA ps =
      scanLoop f endMs n (tMs + 20000) tMs e inPass cA ps := by
  conv_lhs => rw [scanLoop]
  rw [dif_pos h]
  simp only [hfm]
  have hup : ¬(inPass = false ∧ prevE ≤ 0 ∧ 0 < e) := by
    rintro ⟨h1, h2⟩
    exact hnoup h1 h2
  simp only [if_neg hup]
  rw [if_neg (by
    rintro ⟨h1, h2⟩
    exact hnodown h1 h2)]

theorem scanLoop_step_up (f : Oracle) (endMs : ℤ) (n : ℕ) (tMs prevT : ℤ)
    (prevE : ℚ) (inPass : Bool) (cA : Option ℤ) (ps : List Pass) (e : ℚ)
    (h : tMs ≤ endMs) (hfm : f tMs = some e) (hip : inPass = false)
    (hprev : prevE ≤ 0) (he : 0 < e) :
    scanLoop f endMs n tMs prevT prevE inPass cA ps =
      scanLoop f endMs n (tMs + 20000) tMs e true (some (refineOr f prevT tMs)) ps := by
  conv_lhs => rw [scanLoop]
  rw [dif_pos h]
  simp only [hfm]
  simp only [if_pos (⟨hip, hprev, he⟩ : inPass = false ∧ prevE ≤ 0 ∧ 0 < e)]
  rw [if_neg (fun hc => absurd hc.2.2 (not_le.mpr he))]

theorem scanLoop_step_down_push (f : Oracle) (endMs : ℤ) (n : ℕ) (tMs prevT : ℤ)
    (prevE : ℚ) (inPass : Bool) (ps : List Pass) (e : ℚ) (aos : ℤ)
    (h : tMs ≤ endMs) (hfm : f tMs = some e) (hip : inPass = true)
    (hprev : 0 < prevE) (he : e ≤ 0)
    (haos : aos < refineOr f prevT tMs) :
    scanLoop f endMs n tMs prevT prevE inPass (some aos) ps =
      if n ≤ (ps ++ [mkPass f aos (refineOr f prevT tMs)]).length then
        ps ++ [mkPass f aos (refineOr f prevT tMs)]
      else
        scanLoop f endMs n (tMs + 20000) tMs e false none
          (ps ++ [mkPass f aos (refineOr f prevT tMs)]) := by
  conv_lhs => rw [scanLoop]
  rw [dif_pos h]
  simp only [hfm]
  have hup : ¬(inPass = false ∧ prevE ≤ 0 ∧ 0 < e) := by
    rintro ⟨h1, _⟩
    rw [hip] at h1
    cases h1
  simp only [if_neg hup]
  rw [if_pos ⟨hip, hprev, he⟩]
  simp only [if_pos haos]

theorem scanLoop_step_down_nopush (f : Oracle) (endMs : ℤ) (n : ℕ) (tMs prevT : ℤ)
    (prevE : ℚ) (inPass : Bool) (ps : List Pass) (e : ℚ) (aos : ℤ)
    (h : tMs ≤ endMs) (hfm : f tMs = some e) (hip : inPass = true)
    (hprev : 0 < prevE) (he : e ≤ 0)
    (haos : ¬aos < refineOr f prevT tMs) :
    scanLoop f endMs n tMs prevT prevE inPass (some aos) ps =
      scanLoop f endMs n (tMs + 20000) tMs e false none ps := by
  conv_lhs => rw [scanLoop]
  rw [dif_pos h]
  simp only [hfm]
  have hup : ¬(inPass = false ∧ prevE ≤ 0 ∧ 0 < e) := by
    rintro ⟨h1, _⟩
    rw [hip] at h1
    cases h1
  simp only [if_neg hup]
  rw [if_pos ⟨hip, hprev, he⟩]
  simp only [if_neg haos]

theorem scanLoop_step_down_noaos (f : Oracle) (endMs : ℤ) (n : ℕ) (tMs prevT : ℤ)
    (prevE : ℚ) (inPass : Bool) (ps : List Pass) (e : ℚ)
    (h : tMs ≤ endMs) (hfm : f tMs = some e) (hip : inPass = true)
    (hprev : 0 < prevE) (he : e ≤ 0) :
    scanLoop f endMs n tMs prevT prevE inPass none ps =
      scanLoop f endMs n (tMs + 20000) tMs e false none ps := by
  conv_lhs => rw [scanLoop]
  rw [dif_pos h]
  simp only [hfm]
  have hup : ¬(inPass = false ∧ prevE ≤ 0 ∧ 0 < e) := by
    rintro ⟨h1, _⟩
    rw [hip] at h1
    cases h1
  simp only [if_neg hup]
  rw [if_pos ⟨hip, hprev, he⟩]

theorem scanPasses_eq (f : Oracle) (startMs endMs : ℤ) (n : ℕ) :
    scanPasses f startMs endMs n =
      scanLoop f endMs n (startMs + 20000) startMs ((f startMs).getD (-999))
        (decide (0 < (f startMs).getD (-999)))
        (if 0 < (f startMs).getD (-999) then some startMs else none) [] := rfl

/-! ## Claim C6: when and only when the bisection fails. -/

theorem bisectLoop_none_iff (f : Oracle) (target : ℚ) :
    ∀ (n : ℕ) (a b ea : ℚ),
      bisectLoop f target n a b ea = none ↔
        ∃ m ∈ bisectMids f target n a b ea, f m = none := by
  intro n
  induction n with
  | zero =>
    intro a b ea
    rw [bisectLoop, bisectMids]
    simp
  | succ n ih =>
    intro a b ea
    rw [bisectLoop, bisectMids]
    rcases hm : f (jsTrunc ((a + b) / 2)) with _ | em
    · simp [hm]
    · simp only [hm]
      by_cases h0 : ea - target = 0
      · rw [if_pos h0, if_pos h0]
        constructor
        · intro hc
          cases hc
        · rintro ⟨m, hmem, hnone⟩
          rcases List.mem_cons.mp hmem with h1 | h1
          · rw [h1, hm] at hnone
            cases hnone
          · cases h1
      · rw [if_neg h0, if_neg h0]
        by_cases hsgn : (0 < ea - target ∧ 0 < em - target) ∨
            (ea - target < 0 ∧ em - target < 0)
        · rw [if_pos hsgn, if_pos hsgn, ih]
          constructor
          · rintro ⟨m, hmem, hnone⟩
            exact ⟨m, List.mem_cons_of_mem _ hmem, hnone⟩
          · rintro ⟨m, hmem, hnone⟩
            rcases List.mem_cons.mp hmem with h1 | h1
            · rw [h1, hm] at hnone
              cases hnone
            · exact ⟨m, h1, hnone⟩
        · rw [if_neg hsgn, if_neg hsgn, ih]
          constructor
          · rintro ⟨m, hmem, hnone⟩
            exact ⟨m, List.mem_cons_of_mem _ hmem, hnone⟩
          · rintro ⟨m, hmem, hnone⟩
            rcases List.mem_cons.mp hmem with h1 | h1
            · rw [h1, hm] at hnone
              cases hnone
            · exact ⟨m, h1, hnone⟩

/-- C6: `bisectCrossingTime` signals failure iff the oracle is `null` at an
original endpoint or at one of the (truncated) midpoints it evaluates; and
on failure the scan's fallback `refineOr` is the coarse sample `t1`. -/
theorem bisect_fail_characterization (f : Oracle) (t0 t1 : ℤ) (target : ℚ) (iters : ℕ) :
    (bisectCrossingTime f t0 t1 target iters = none ↔
      f t0 = none ∨ f t1 = none ∨
        ∃ m ∈ bisectMids f target iters (t0 : ℚ) (t1 : ℚ) ((f t0).getD 0), f m = none) ∧
    (bisectCrossingTime f t0 t1 0 25 = none → refineOr f t0 t1 = t1) := by
  constructor
  · unfold bisectCrossingTime
    rcases h0 : f t0 with _ | ea
    · simp
    · rcases h1 : f t1 with _ | eb
      · simp
      · simp only [h0, h1, Option.getD_some]
        rw [Option.map_eq_none', bisectLoop_none_iff]
        simp
  · intro h
    unfold refineOr
    rw [h]
    rfl

/-- Witness for C6: an oracle resolvable only at the coarse ticks makes the
very first midpoint (10000) evaluate to `null`, so the bisection between
the ticks 0 and 20000 fails and the fallback is the coarse sample 20000. -/
theorem bisect_fail_characterization_witness :
    bisectCrossingTime oracleTicksOnly 0 20000 0 25 = none ∧
      refineOr oracleTicksOnly 0 20000 = 20000 := by
  have htr : jsTrunc (((0 : ℚ) + 20000) / 2) = 10000 := by
    rw [jsTrunc_of_nonneg _ (by norm_num)]
    norm_num
  have hmids : (10000 : ℤ) ∈ bisectMids oracleTicksOnly 0 25 ((0 : ℤ) : ℚ) ((20000 : ℤ) : ℚ)
      ((oracleTicksOnly 0).getD 0) := by
    rw [show (25 : ℕ) = 24 + 1 from rfl, bisectMids]
    push_cast
    rw [htr]
    exact List.mem_cons_self _ _
  have hnone : bisectCrossingTime oracleTicksOnly 0 20000 0 25 = none := by
    apply (bisect_fail_characterization oracleTicksOnly 0 20000 0 25).1.mpr
    refine Or.inr (Or.inr ⟨10000, hmids, ?_⟩)
    norm_num [oracleTicksOnly]
  exact ⟨hnone, (bisect_fail_characterization oracleTicksOnly 0 20000 0 25).2 hnone⟩

/-! ## The specification of the peak finder. -/

theorem findMaxLoop_spec (f : Oracle) (endMs : ℤ) (ms : ℤ) (best : ℤ × ℚ) :
    (findMaxLoop f endMs ms best = best ∨
      (ms ≤ (findMaxLoop f endMs ms best).1 ∧ (findMaxLoop f endMs ms best).1 ≤ endMs ∧
        5000 ∣ (findMaxLoop f endMs ms best).1 - ms ∧
        f (findMaxLoop f endMs ms best).1 = some (findMaxLoop f endMs ms best).2 ∧
        best.2 < (findMaxLoop f endMs ms best).2)) ∧
    (∀ t e, ms ≤ t → t ≤ endMs → 5000 ∣ t - ms → f t = some e →
      e ≤ (findMaxLoop f endMs ms best).2) ∧
    (∀ t e, ms ≤ t → t ≤ endMs → 5000 ∣ t - ms → f t = some e →
      e = (findMaxLoop f endMs ms best).2 → best.2 < e →
      (findMaxLoop f endMs ms best).1 ≤ t) := by
  induction ms, best using findMaxLoop.induct f endMs with
  | case1 ms best h ih =>
    have hunf : findMaxLoop f endMs ms best =
        findMaxLoop f endMs (ms + 5000)
          (match f ms with
           | some e => if best.2 < e then (ms, e) else best
           | none => best) := by
      conv_lhs => rw [findMaxLoop]
      rw [dif_pos h]
    rw [hunf]
    rcases hfm : f ms with _ | ev
    · simp only [hfm] at ih ⊢
      obtain ⟨iha, ihb, ihc⟩ := ih
      refine ⟨?_, ?_, ?_⟩
      · rcases iha with h1 | h1
        · exact Or.inl h1
        · obtain ⟨hh1, hh2, hh3, hh4, hh5⟩ := h1
          exact Or.inr ⟨by omega, hh2, by omega, hh4, hh5⟩
      · intro t e ht1 ht2 ht3 hte
        rcases eq_or_lt_of_le ht1 with rfl | ht1a
        · rw [hfm] at hte
          cases hte
        · exact ihb t e (by omega) ht2 (by omega) hte
      · intro t e ht1 ht2 ht3 hte hmax hbest
        rcases eq_or_lt_of_le ht1 with rfl | ht1a
        · rw [hfm] at hte
          cases hte
        · exact ihc t e (by omega) ht2 (by omega) hte hmax hbest
    · simp only [hfm] at ih ⊢
      by_cases hlt : best.2 < ev
      · rw [dif_pos hlt] at ih
        rw [if_pos hlt]
        obtain ⟨iha, ihb, ihc⟩ := ih
        have hmono : ev ≤ (findMaxLoop f endMs (ms + 5000) (ms, ev)).2 := by
          rcases iha with h1 | h1
          · rw [h1]
          · exact le_of_lt h1.2.2.2.2
        refine ⟨?_, ?_, ?_⟩
        · rcases iha with h1 | h1
          · refine Or.inr ?_
            rw [h1]
            exact ⟨le_rfl, h, by simp, hfm, hlt⟩
          · obtain ⟨hh1, hh2, hh3, hh4, hh5⟩ := h1
            exact Or.inr ⟨by omega, hh2, by omega, hh4, lt_trans hlt hh5⟩
        · intro t e ht1 ht2 ht3 hte
          rcases eq_or_lt_of_le ht1 with rfl | ht1a
          · rw [hfm] at hte
            obtain rfl : ev = e := by injection hte
            exact hmono
          · exact ihb t e (by omega) ht2 (by omega) hte
        · intro t e ht1 ht2 ht3 hte hmax hbest
          rcases eq_or_lt_of_le ht1 with rfl | ht1a
          · rw [hfm] at hte
            obtain rfl : ev = e := by injection hte
            rcases iha with h1 | h1
            · rw [h1]
            · rw [← hmax] at h1
              exact absurd h1.2.2.2.2 (by simp)
          · rcases lt_or_eq_of_le hmono with hlt2 | heq2
            · exact ihc t e (by omega) ht2 (by omega) hte hmax (by rw [hmax]; exact hlt2)
            · rcases iha with h1 | h1
              · rw [h1]
                simp only []
                omega
              · rw [← heq2] at h1
                exact absurd h1.2.2.2.2 (by simp)
      · rw [dif_neg hlt] at ih
        rw [if_neg hlt]
        obtain ⟨iha, ihb, ihc⟩ := ih
        have hbmono : best.2 ≤ (findMaxLoop f endMs (ms + 5000) best).2 := by
          rcases iha with h1 | h1
          · rw [h1]
          · exact le_of_lt h1.2.2.2.2
        refine ⟨?_, ?_, ?_⟩
        · rcases iha with h1 | h1
          · exact Or.inl h1
          · obtain ⟨hh1, hh2, hh3, hh4, hh5⟩ := h1
            exact Or.inr ⟨by omega, hh2, by omega, hh4, hh5⟩
        · intro t e ht1 ht2 ht3 hte
          rcases eq_or_lt_of_le ht1 with rfl | ht1a
          · rw [hfm] at hte
            obtain rfl : ev = e := by injection hte
            exact le_trans (not_lt.mp hlt) hbmono
          · exact ihb t e (by omega) ht2 (by omega) hte
        · intro t e ht1 ht2 ht3 hte hmax hbest
          rcases eq_or_lt_of_le ht1 with rfl | ht1a
          · rw [hfm] at hte
            obtain rfl : ev = e := by injection hte
            exact absurd hbest hlt
          · exact ihc t e (by omega) ht2 (by omega) hte hmax hbest
  | case2 ms best h =>
    have hunf : findMaxLoop f endMs ms best = best := by
      rw [findMaxLoop, dif_neg h]
    rw [hunf]
    refine ⟨Or.inl rfl, ?_, ?_⟩
    · intro t e ht1 ht2 ht3 hte
      omega
    · intro t e ht1 ht2 ht3 hte hmax hbest
      omega

/-! ## Claim C8: the peak finder returns the first-encountered maximum. -/

/-- C8: over the 5-second grid spanning the bracket, `findMaxElevation`
returns a grid sample together with its elevation; every non-`null` grid
sample is no larger, and any grid sample attaining the maximum is at or
after the returned timestamp (ties resolve to the earliest sample).  The
hypothesis rules out the degenerate bracket in which no observed sample
beats the `-999` sentinel. -/
theorem findMaxElevation_first_max (f : Oracle) (aos los : ℤ)
    (h : ∃ t e, onFineGrid aos los t ∧ f t = some e ∧ -999 < e) :
    onFineGrid aos los (findMaxElevation f aos los).1 ∧
    f (findMaxElevation f aos los).1 = some (findMaxElevation f aos los).2 ∧
    (∀ t e, onFineGrid aos los t → f t = some e → e ≤ (findMaxElevation f aos los).2) ∧
    (∀ t e, onFineGrid aos los t → f t = some e →
      e = (findMaxElevation f aos los).2 → (findMaxElevation f aos los).1 ≤ t) := by
  obtain ⟨t0, e0, hg0, hf0, he0⟩ := h
  obtain ⟨sa, sb, sc⟩ := findMaxLoop_spec f los aos (aos, -999)
  have hr2 : (-999 : ℚ) < (findMaxLoop f los aos (aos, -999)).2 :=
    lt_of_lt_of_le he0 (sb t0 e0 hg0.1 hg0.2.1 hg0.2.2 hf0)
  have hsa : aos ≤ (findMaxLoop f los aos (aos, -999)).1 ∧
      (findMaxLoop f los aos (aos, -999)).1 ≤ los ∧
      5000 ∣ (findMaxLoop f los aos (aos, -999)).1 - aos ∧
      f (findMaxLoop f los aos (aos, -999)).1 = some (findMaxLoop f los aos (aos, -999)).2 := by
    rcases sa with h1 | h1
    · rw [h1] at hr2
      exact absurd hr2 (by norm_num)
    · exact ⟨h1.1, h1.2.1, h1.2.2.1, h1.2.2.2.1⟩
  refine ⟨⟨hsa.1, hsa.2.1, hsa.2.2.1⟩, hsa.2.2.2, ?_, ?_⟩
  · intro t e hg hf
    exact sb t e hg.1 hg.2.1 hg.2.2 hf
  · intro t e hg hf hmax
    refine sc t e hg.1 hg.2.1 hg.2.2 hf hmax ?_
    show (-999 : ℚ) < e
    rw [hmax]
    exact hr2

theorem findMaxElevation_bounds (f : Oracle) (aos los : ℤ) (h : aos ≤ los) :
    aos ≤ (findMaxElevation f aos los).1 ∧ (findMaxElevation f aos los).1 ≤ los ∧
      (-999 : ℚ) ≤ (findMaxElevation f aos los).2 ∧
      ((∃ t e, onFineGrid aos los t ∧ f t = some e ∧ 0 ≤ e) →
        0 ≤ (findMaxElevation f aos los).2) := by
  obtain ⟨sa, sb, sc⟩ := findMaxLoop_spec f los aos (aos, -999)
  have h4 : (∃ t e, onFineGrid aos los t ∧ f t = some e ∧ 0 ≤ e) →
      0 ≤ (findMaxElevation f aos los).2 := by
    rintro ⟨t, e, hg, hf, he⟩
    exact le_trans he (sb t e hg.1 hg.2.1 hg.2.2 hf)
  rcases sa with h1 | h1
  · unfold findMaxElevation
    rw [h1]
    exact ⟨le_rfl, h, le_rfl, by rw [findMaxElevation, h1] at h4; exact h4⟩
  · exact ⟨h1.1, h1.2.1, le_of_lt h1.2.2.2.2, h4⟩

theorem mkPass_ok (f : Oracle) (aos los : ℤ) (h : aos < los) : PassOK f (mkPass f aos los) := by
  obtain ⟨b1, b2, b3, b4⟩ := findMaxElevation_bounds f aos los h.le
  exact ⟨h, b1, b2, b3, b4⟩

/-! ## Scans that never complete a pass. -/

theorem scanLoop_all_pos (f : Oracle) (endMs : ℤ) (n : ℕ) (tMs prevT : ℤ) (prevE : ℚ)
    (inPass : Bool) (cA : Option ℤ) (ps : List Pass)
    (hf : ∀ t e, f t = some e → 0 < e) :
    scanLoop f endMs n tMs prevT prevE inPass cA ps = ps := by
  by_cases h : tMs ≤ endMs
  · rcases hfm : f tMs with _ | e
    · rw [scanLoop_step_none f endMs n tMs prevT prevE inPass cA ps h hfm]
      exact scanLoop_all_pos f endMs n (tMs + 20000) prevT prevE inPass cA ps hf
    · have he : 0 < e := hf tMs e hfm
      by_cases hup : inPass = false ∧ prevE ≤ 0
      · rw [scanLoop_step_up f endMs n tMs prevT prevE inPass cA ps e h hfm hup.1 hup.2 he]
        exact scanLoop_all_pos f endMs n (tMs + 20000) tMs e true _ ps hf
      · rw [scanLoop_step_quiet f endMs n tMs prevT prevE inPass cA ps e h hfm
          (fun h1 h2 => hup ⟨h1, h2.1⟩) (fun _ h2 => absurd h2.2 (not_le.mpr he))]
        exact scanLoop_all_pos f endMs n (tMs + 20000) tMs e inPass cA ps hf
  · exact scanLoop_stop f endMs n tMs prevT prevE inPass cA ps h
termination_by (endMs + 1 - tMs).toNat
decreasing_by all_goals omega

theorem scanLoop_stay_out (f : Oracle) (endMs : ℤ) (n : ℕ) (tMs prevT : ℤ) (prevE : ℚ)
    (cA : Option ℤ) (ps : List Pass)
    (hf : ∀ t e, tMs ≤ t → f t = some e → e ≤ 0) :
    scanLoop f endMs n tMs prevT prevE false cA ps = ps := by
  by_cases h : tMs ≤ endMs
  · rcases hfm : f tMs with _ | e
    · rw [scanLoop_step_none f endMs n tMs prevT prevE false cA ps h hfm]
      exact scanLoop_stay_out f endMs n (tMs + 20000) prevT prevE cA ps
        (fun t e h1 h2 => hf t e (by omega) h2)
    · have he : e ≤ 0 := hf tMs e le_rfl hfm
      rw [scanLoop_step_quiet f endMs n tMs prevT prevE false cA ps e h hfm
        (fun _ h2 => absurd h2.2 (not_lt.mpr he)) (fun h1 _ => by cases h1)]
      exact scanLoop_stay_out f endMs n (tMs + 20000) tMs e cA ps
        (fun t e h1 h2 => hf t e (by omega) h2)
  · exact scanLoop_stop f endMs n tMs prevT prevE false cA ps h
termination_by (endMs + 1 - tMs).toNat
decreasing_by all_goals omega

/-! ## Claim C2 (corrected): an always-positive oracle yields no pass. -/

/-- Counterexample to C2 as stated: for the oracle constantly returning
elevation 1 over the whole one-hour window, `computeNextPasses` reports the
"no passes" outcome — not exactly one pass with AOS at the window start and
LOS at the window end.  The trailing open pass is dropped, never closed at
the window boundary. -/
theorem always_up_counterexample :
    computeNextPasses oracleAlwaysUp 0 1 1 = ScanOutcome.noPasses := by
  have hempty : scanPasses oracleAlwaysUp 0 (0 + 1 * 3600 * 1000) 1 = [] := by
    rw [scanPasses_eq]
    exact scanLoop_all_pos oracleAlwaysUp (0 + 1 * 3600 * 1000) 1 (0 + 20000) 0 _ _ _ []
      (fun t e he => by
        obtain rfl : (1 : ℚ) = e := by injection he
        norm_num)
  unfold computeNextPasses
  rw [hempty]
  rfl

/-- C2 as amended: for every oracle strictly above the horizon at every
resolvable instant, the search reports the explicit "no passes" outcome for
any window and pass budget: no downward crossing ever occurs, and the code
never closes the still-open pass at the window end. -/
theorem always_up_no_passes (f : Oracle) (startMs searchHours : ℤ) (n : ℕ)
    (hf : ∀ t e, f t = some e → 0 < e) :
    computeNextPasses f startMs searchHours n = ScanOutcome.noPasses := by
  have hempty : scanPasses f startMs (startMs + searchHours * 3600 * 1000) n = [] := by
    rw [scanPasses_eq]
    exact scanLoop_all_pos f _ n _ startMs _ _ _ [] hf
  unfold computeNextPasses
  rw [hempty]
  rfl

/-- Witness for the amended C2 at a concrete input. -/
theorem always_up_no_passes_witness :
    computeNextPasses oracleAlwaysUp 5000 2 3 = ScanOutcome.noPasses := by
  refine always_up_no_passes oracleAlwaysUp 5000 2 3 ?_
  intro t e he
  obtain rfl : (1 : ℚ) = e := by injection he
  norm_num

/-! ## Claim C5: an oracle never above the horizon crosses nothing. -/

/-- C5: for every oracle whose resolvable samples are all at or below the
horizon, the search terminates (it is a total function) with the explicit
"no passes" outcome, for every window and pass budget. -/
theorem always_down_no_passes (f : Oracle) (startMs searchHours : ℤ) (n : ℕ)
    (hf : ∀ t e, f t = some e → e ≤ 0) :
    computeNextPasses f startMs searchHours n = ScanOutcome.noPasses := by
  have hseed : ¬(0 < (f startMs).getD (-999)) := by
    rcases h0 : f startMs with _ | e0
    · norm_num
    · simpa using not_lt.mpr (hf startMs e0 h0)
  have hempty : scanPasses f startMs (startMs + searchHours * 3600 * 1000) n = [] := by
    rw [scanPasses_eq]
    rw [decide_eq_false hseed, if_neg hseed]
    exact scanLoop_stay_out f _ n _ startMs _ _ [] (fun t e _ h2 => hf t e h2)
  unfold computeNextPasses
  rw [hempty]
  rfl

/-- Witness for C5 at a concrete input. -/
theorem always_down_no_passes_witness :
    computeNextPasses oracleAlwaysDown 0 1 1 = ScanOutcome.noPasses := by
  refine always_down_no_passes oracleAlwaysDown 0 1 1 ?_
  intro t e he
  obtain rfl : (-1 : ℚ) = e := by injection he
  norm_num

/-! ## The master invariant of the coarse scan: every emitted pass is
well-formed and the list is ordered (each LOS at or before the next AOS). -/

theorem scanLoop_inv (f : Oracle) (endMs : ℤ) (n : ℕ) (tMs prevT : ℤ) (prevE : ℚ)
    (inPass : Bool) (cA : Option ℤ) (ps : List Pass)
    (hpt : prevT < tMs)
    (hps : ∀ p ∈ ps, PassOK f p ∧ p.los ≤ prevT)
    (hsort : ps.Pairwise (fun p q => p.los ≤ q.aos))
    (hca : ∀ a, cA = some a → ∀ p ∈ ps, p.los ≤ a) :
    (∀ p ∈ scanLoop f endMs n tMs prevT prevE inPass cA ps, PassOK f p) ∧
      (scanLoop f endMs n tMs prevT prevE inPass cA ps).Pairwise
        (fun p q => p.los ≤ q.aos) := by
  by_cases h : tMs ≤ endMs
  · rcases hfm : f tMs with _ | e
    · rw [scanLoop_step_none f endMs n tMs prevT prevE inPass cA ps h hfm]
      exact scanLoop_inv f endMs n (tMs + 20000) prevT prevE inPass cA ps (by omega)
        hps hsort hca
    · have hro := refineOr_range f prevT tMs (le_of_lt hpt)
      by_cases hup : inPass = false ∧ prevE ≤ 0 ∧ 0 < e
      · rw [scanLoop_step_up f endMs n tMs prevT prevE inPass cA ps e h hfm
          hup.1 hup.2.1 hup.2.2]
        refine scanLoop_inv f endMs n (tMs + 20000) tMs e true _ ps (by omega)
          (fun p hp => ⟨(hps p hp).1, le_trans (hps p hp).2 (by omega)⟩) hsort ?_
        intro a ha p hp
        obtain rfl : refineOr f prevT tMs = a := by injection ha
        exact le_trans (hps p hp).2 hro.1
      · by_cases hdown : inPass = true ∧ 0 < prevE ∧ e ≤ 0
        · rcases hcaeq : cA with _ | aos
          · rw [scanLoop_step_down_noaos f endMs n tMs prevT prevE inPass ps e h hfm
              hdown.1 hdown.2.1 hdown.2.2]
            exact scanLoop_inv f endMs n (tMs + 20000) tMs e false none ps (by omega)
              (fun p hp => ⟨(hps p hp).1, le_trans (hps p hp).2 (by omega)⟩) hsort
              (fun a ha => by cases ha)
          · by_cases hguard : aos < refineOr f prevT tMs
            · rw [scanLoop_step_down_push f endMs n tMs prevT prevE inPass ps e aos h hfm
                hdown.1 hdown.2.1 hdown.2.2 hguard]
              have hnew : PassOK f (mkPass f aos (refineOr f prevT tMs)) :=
                mkPass_ok f aos (refineOr f prevT tMs) hguard
              have hps2 : ∀ p ∈ ps ++ [mkPass f aos (refineOr f prevT tMs)],
                  PassOK f p ∧ p.los ≤ tMs := by
                intro p hp
                rcases List.mem_append.mp hp with hp1 | hp1
                · exact ⟨(hps p hp1).1, le_trans (hps p hp1).2 (le_of_lt hpt)⟩
                · obtain rfl : p = mkPass f aos (refineOr f prevT tMs) := by
                    simpa using hp1
                  exact ⟨hnew, hro.2⟩
              have hsort2 : (ps ++ [mkPass f aos (refineOr f prevT tMs)]).Pairwise
                  (fun p q => p.los ≤ q.aos) := by
                rw [List.pairwise_append]
                refine ⟨hsort, List.pairwise_singleton _ _, ?_⟩
                intro p hp q hq
                obtain rfl : q = mkPass f aos (refineOr f prevT tMs) := by simpa using hq
                exact hca aos hcaeq p hp
              split
              · exact ⟨fun p hp => (hps2 p hp).1, hsort2⟩
              · exact scanLoop_inv f endMs n (tMs + 20000) tMs e false none _ (by omega)
                  hps2 hsort2 (fun a ha => by cases ha)
            · rw [scanLoop_step_down_nopush f endMs n tMs prevT prevE inPass ps e aos h hfm
                hdown.1 hdown.2.1 hdown.2.2 hguard]
              exact scanLoop_inv f endMs n (tMs + 20000) tMs e false none ps (by omega)
                (fun p hp => ⟨(hps p hp).1, le_trans (hps p hp).2 (by omega)⟩) hsort
                (fun a ha => by cases ha)
        · rw [scanLoop_step_quiet f endMs n tMs prevT prevE inPass cA ps e h hfm
            (fun h1 h2 => hup ⟨h1, h2⟩) (fun h1 h2 => hdown ⟨h1, h2⟩)]
          exact scanLoop_inv f endMs n (tMs + 20000) tMs e inPass cA ps (by omega)
            (fun p hp => ⟨(hps p hp).1, le_trans (hps p hp).2 (by omega)⟩) hsort hca
  · rw [scanLoop_stop f endMs n tMs prevT prevE inPass cA ps h]
    exact ⟨fun p hp => (hps p hp).1, hsort⟩
termination_by (endMs + 1 - tMs).toNat
decreasing_by all_goals omega

theorem scanLoop_append (f : Oracle) (endMs : ℤ) (n : ℕ) (tMs prevT : ℤ) (prevE : ℚ)
    (inPass : Bool) (cA : Option ℤ) (ps : List Pass) :
    ∃ suf, scanLoop f endMs n tMs prevT prevE inPass cA ps = ps ++ suf := by
  by_cases h : tMs ≤ endMs
  · rcases hfm : f tMs with _ | e
    · rw [scanLoop_step_none f endMs n tMs prevT prevE inPass cA ps h hfm]
      exact scanLoop_append f endMs n (tMs + 20000) prevT prevE inPass cA ps
    · by_cases hup : inPass = false ∧ prevE ≤ 0 ∧ 0 < e
      · rw [scanLoop_step_up f endMs n tMs prevT prevE inPass cA ps e h hfm
          hup.1 hup.2.1 hup.2.2]
        exact scanLoop_append f endMs n (tMs + 20000) tMs e true _ ps
      · by_cases hdown : inPass = true ∧ 0 < prevE ∧ e ≤ 0
        · rcases hcaeq : cA with _ | aos
          · rw [scanLoop_step_down_noaos f endMs n tMs prevT prevE inPass ps e h hfm
              hdown.1 hdown.2.1 hdown.2.2]
            exact scanLoop_append f endMs n (tMs + 20000) tMs e false none ps
          · by_cases hguard : aos < refineOr f prevT tMs
            · rw [scanLoop_step_down_push f endMs n tMs prevT prevE inPass ps e aos h hfm
                hdown.1 hdown.2.1 hdown.2.2 hguard]
              split
              · exact ⟨[mkPass f aos (refineOr f prevT tMs)], rfl⟩
              · obtain ⟨suf, hsuf⟩ := scanLoop_append f endMs n (tMs + 20000) tMs e false none
                  (ps ++ [mkPass f aos (refineOr f prevT tMs)])
                exact ⟨[mkPass f aos (refineOr f prevT tMs)] ++ suf, by
                  rw [hsuf, List.append_assoc]⟩
            · rw [scanLoop_step_down_nopush f endMs n tMs prevT prevE inPass ps e aos h hfm
                hdown.1 hdown.2.1 hdown.2.2 hguard]
              exact scanLoop_append f endMs n (tMs + 20000) tMs e false none ps
        · rw [scanLoop_step_quiet f endMs n tMs prevT prevE inPass cA ps e h hfm
            (fun h1 h2 => hup ⟨h1, h2⟩) (fun h1 h2 => hdown ⟨h1, h2⟩)]
          exact scanLoop_append f endMs n (tMs + 20000) tMs e inPass cA ps
  · exact ⟨[], by rw [scanLoop_stop f endMs n tMs prevT prevE inPass cA ps h,
      List.append_nil]⟩
termination_by (endMs + 1 - tMs).toNat
decreasing_by all_goals omega

theorem scanLoop_take (f : Oracle) (endMs : ℤ) (k m : ℕ) (tMs prevT : ℤ) (prevE : ℚ)
    (inPass : Bool) (cA : Option ℤ) (ps : List Pass)
    (hk : ps.length < k) (hkm : k ≤ m) :
    scanLoop f endMs k tMs prevT prevE inPass cA ps =
      (scanLoop f endMs m tMs prevT prevE inPass cA ps).take k := by
  by_cases h : tMs ≤ endMs
  · rcases hfm : f tMs with _ | e
    · rw [scanLoop_step_none f endMs k tMs prevT prevE inPass cA ps h hfm,
        scanLoop_step_none f endMs m tMs prevT prevE inPass cA ps h hfm]
      exact scanLoop_take f endMs k m (tMs + 20000) prevT prevE inPass cA ps hk hkm
    · by_cases hup : inPass = false ∧ prevE ≤ 0 ∧ 0 < e
      · rw [scanLoop_step_up f endMs k tMs prevT prevE inPass cA ps e h hfm
          hup.1 hup.2.1 hup.2.2,
          scanLoop_step_up f endMs m tMs prevT prevE inPass cA ps e h hfm
          hup.1 hup.2.1 hup.2.2]
        exact scanLoop_take f endMs k m (tMs + 20000) tMs e true _ ps hk hkm
      · by_cases hdown : inPass = true ∧ 0 < prevE ∧ e ≤ 0
        · rcases hcaeq : cA with _ | aos
          · rw [scanLoop_step_down_noaos f endMs k tMs prevT prevE inPass ps e h hfm
              hdown.1 hdown.2.1 hdown.2.2,
              scanLoop_step_down_noaos f endMs m tMs prevT prevE inPass ps e h hfm
              hdown.1 hdown.2.1 hdown.2.2]
            exact scanLoop_take f endMs k m (tMs + 20000) tMs e false none ps hk hkm
          · by_cases hguard : aos < refineOr f prevT tMs
            · rw [scanLoop_step_down_push f endMs k tMs prevT prevE inPass ps e aos h hfm
                hdown.1 hdown.2.1 hdown.2.2 hguard,
                scanLoop_step_down_push f endMs m tMs prevT prevE inPass ps e aos h hfm
                hdown.1 hdown.2.1 hdown.2.2 hguard]
              by_cases hbreak : k ≤ (ps ++ [mkPass f aos (refineOr f prevT tMs)]).length
              · have hlen : (ps ++ [mkPass f aos (refineOr f prevT tMs)]).length = k := by
                  have hb2 := hbreak
                  simp only [List.length_append, List.length_singleton] at hb2
                  simp only [List.length_append, List.length_singleton]
                  omega
                rw [if_pos hbreak]
                by_cases hbm : m ≤ (ps ++ [mkPass f aos (refineOr f prevT tMs)]).length
                · rw [if_pos hbm, ← hlen, List.take_length]
                · rw [if_neg hbm]
                  obtain ⟨suf, hsuf⟩ := scanLoop_append f endMs m (tMs + 20000) tMs e
                    false none (ps ++ [mkPass f aos (refineOr f prevT tMs)])
                  rw [hsuf, ← hlen, List.take_left]
              · rw [if_neg hbreak,
                  if_neg (by
                    intro hbm
                    exact hbreak (le_trans hkm hbm))]
                refine scanLoop_take f endMs k m (tMs + 20000) tMs e false none _ ?_ hkm
                simp only [List.length_append, List.length_singleton] at hbreak ⊢
                omega
            · rw [scanLoop_step_down_nopush f endMs k tMs prevT prevE inPass ps e aos h hfm
                hdown.1 hdown.2.1 hdown.2.2 hguard,
                scanLoop_step_down_nopush f endMs m tMs prevT prevE inPass ps e aos h hfm
                hdown.1 hdown.2.1 hdown.2.2 hguard]
              exact scanLoop_take f endMs k m (tMs + 20000) tMs e false none ps hk hkm
        · rw [scanLoop_step_quiet f endMs k tMs prevT prevE inPass cA ps e h hfm
            (fun h1 h2 => hup ⟨h1, h2⟩) (fun h1 h2 => hdown ⟨h1, h2⟩),
            scanLoop_step_quiet f endMs m tMs prevT prevE inPass cA ps e h hfm
            (fun h1 h2 => hup ⟨h1, h2⟩) (fun h1 h2 => hdown ⟨h1, h2⟩)]
          exact scanLoop_take f endMs k m (tMs + 20000) tMs e inPass cA ps hk hkm
  · rw [scanLoop_stop f endMs k tMs prevT prevE inPass cA ps h,
      scanLoop_stop f endMs m tMs prevT prevE inPass cA ps h,
      List.take_of_length_le (le_of_lt hk)]
termination_by (endMs + 1 - tMs).toNat
decreasing_by all_goals omega

/-! ## Claim C1 (amended): invariants of every emitted pass. -/

/-- C1 as amended: for every oracle and search parameters, every emitted
pass record satisfies `aos < los` and `aos ≤ tca ≤ los`, its peak
elevation is at least the `-999` sentinel, and the peak elevation is
non-negative whenever some 5-second sample in the bracket resolves to a
non-negative elevation.  (The strict `aos < tca < los` and unconditional
`maxElevationDeg ≥ 0` of the original claim fail; see the
counterexample.) -/
theorem scan_pass_invariants (f : Oracle) (startMs endMs : ℤ) (n : ℕ) (p : Pass)
    (hp : p ∈ scanPasses f startMs endMs n) :
    p.aos < p.los ∧ p.aos ≤ p.tca ∧ p.tca ≤ p.los ∧ (-999 : ℚ) ≤ p.maxElev ∧
      ((∃ t e, onFineGrid p.aos p.los t ∧ f t = some e ∧ 0 ≤ e) → 0 ≤ p.maxElev) := by
  rw [scanPasses_eq] at hp
  exact (scanLoop_inv f endMs n (startMs + 20000) startMs ((f startMs).getD (-999))
    (decide (0 < (f startMs).getD (-999)))
    (if 0 < (f startMs).getD (-999) then some startMs else none) [] (by omega)
    (by intro q hq; cases hq) List.Pairwise.nil
    (fun a _ q hq => by cases hq)).1 p hp

/-! ## Claim C4: the `maxPasses` cap. -/

/-- C4: if the scan with budget `k + 1` finds more than `k` qualifying
passes in the window, then the scan with budget `k ≥ 1` returns exactly
`k` passes, in strictly ascending AOS order. -/
theorem maxPasses_cap (f : Oracle) (startMs endMs : ℤ) (k : ℕ) (hk : 1 ≤ k)
    (hmore : k < (scanPasses f startMs endMs (k + 1)).length) :
    (scanPasses f startMs endMs k).length = k ∧
      (scanPasses f startMs endMs k).Pairwise (fun p q => p.aos < q.aos) := by
  have htake : scanPasses f startMs endMs k =
      (scanPasses f startMs endMs (k + 1)).take k := by
    rw [scanPasses_eq, scanPasses_eq]
    exact scanLoop_take f endMs k (k + 1) (startMs + 20000) startMs _ _ _ []
      (by simpa using hk) (by omega)
  have hinv := scanLoop_inv f endMs k (startMs + 20000) startMs
    ((f startMs).getD (-999)) (decide (0 < (f startMs).getD (-999)))
    (if 0 < (f startMs).getD (-999) then some startMs else none) [] (by omega)
    (by intro q hq; cases hq) List.Pairwise.nil (fun a _ q hq => by cases hq)
  rw [← scanPasses_eq f startMs endMs k] at hinv
  refine ⟨?_, ?_⟩
  · rw [htake, List.length_take]
    omega
  · refine List.Pairwise.imp_of_mem ?_ hinv.2
    intro p q hp hq hle
    exact lt_of_lt_of_le (hinv.1 p hp).1 hle

/-! ## Evaluating the fallback on concrete oracles. -/

theorem refineOr_mid_none (f : Oracle) (t0 t1 : ℤ)
    (hmid : f (jsTrunc (((t0 : ℚ) + (t1 : ℚ)) / 2)) = none) :
    refineOr f t0 t1 = t1 := by
  unfold refineOr bisectCrossingTime
  rcases hf0 : f t0 with _ | ea
  · rfl
  · rcases hf1 : f t1 with _ | eb
    · rfl
    · simp only [hf0, hf1]
      rw [show (25 : ℕ) = 24 + 1 from rfl, bisectLoop]
      simp only [hmid]
      rfl

theorem jsTrunc_intCast (z : ℤ) : jsTrunc ((z : ℚ)) = z := by
  unfold jsTrunc
  split
  · exact Int.floor_intCast z
  · exact Int.ceil_intCast z

theorem findMaxLoop_step (f : Oracle) (endMs ms : ℤ) (best : ℤ × ℚ) (h : ms ≤ endMs) :
    findMaxLoop f endMs ms best =
      findMaxLoop f endMs (ms + 5000)
        (match f ms with
         | some e => if best.2 < e then (ms, e) else best
         | none => best) := by
  conv_lhs => rw [findMaxLoop]
  rw [dif_pos h]

theorem findMaxLoop_end (f : Oracle) (endMs ms : ℤ) (best : ℤ × ℚ) (h : ¬ms ≤ endMs) :
    findMaxLoop f endMs ms best = best := by
  rw [findMaxLoop, dif_neg h]

theorem findMaxLoop_step_some (f : Oracle) (endMs ms : ℤ) (best : ℤ × ℚ) (e : ℚ)
    (h : ms ≤ endMs) (hfm : f ms = some e) :
    findMaxLoop f endMs ms best =
      findMaxLoop f endMs (ms + 5000) (if best.2 < e then (ms, e) else best) := by
  rw [findMaxLoop_step f endMs ms best h, hfm]

theorem findMaxLoop_step_none (f : Oracle) (endMs ms : ℤ) (best : ℤ × ℚ)
    (h : ms ≤ endMs) (hfm : f ms = none) :
    findMaxLoop f endMs ms best = findMaxLoop f endMs (ms + 5000) best := by
  rw [findMaxLoop_step f endMs ms best h, hfm]

/-! ## A concrete run: a pass in progress at the window start. -/

theorem oracleStartHigh_run :
    scanPasses oracleStartHigh 0 60000 1 = [⟨0, 40000, 0, 1⟩] := by
  have h0 : oracleStartHigh 0 = some 1 := by norm_num [oracleStartHigh]
  have h20 : oracleStartHigh 20000 = some 1 := by norm_num [oracleStartHigh]
  have h40 : oracleStartHigh 40000 = some (-1) := by norm_num [oracleStartHigh]
  have hrf : refineOr oracleStartHigh 20000 40000 = 40000 := by
    apply refineOr_mid_none
    have hm : ((((20000 : ℤ)) : ℚ) + (((40000 : ℤ)) : ℚ)) / 2 = ((30000 : ℤ) : ℚ) := by
      push_cast
      norm_num
    rw [hm, jsTrunc_intCast]
    norm_num [oracleStartHigh]
  have hv : ∀ t : ℤ, t = 5000 ∨ t = 10000 ∨ t = 15000 ∨ t = 25000 ∨ t = 30000 ∨
      t = 35000 → oracleStartHigh t = none := by
    intro t ht
    unfold oracleStartHigh
    rw [if_neg (by omega), if_neg (by omega)]
  have hmk : mkPass oracleStartHigh 0 40000 = ⟨0, 40000, 0, 1⟩ := by
    unfold mkPass findMaxElevation
    rw [findMaxLoop_step_some oracleStartHigh 40000 0 (0, -999) 1 (by norm_num) h0,
      if_pos (by norm_num)]
    rw [show (0 : ℤ) + 5000 = 5000 from by norm_num,
      findMaxLoop_step_none oracleStartHigh 40000 5000 (0, 1) (by norm_num)
        (hv 5000 (by norm_num))]
    rw [show (5000 : ℤ) + 5000 = 10000 from by norm_num,
      findMaxLoop_step_none oracleStartHigh 40000 10000 (0, 1) (by norm_num)
        (hv 10000 (by norm_num))]
    rw [show (10000 : ℤ) + 5000 = 15000 from by norm_num,
      findMaxLoop_step_none oracleStartHigh 40000 15000 (0, 1) (by norm_num)
        (hv 15000 (by norm_num))]
    rw [show (15000 : ℤ) + 5000 = 20000 from by norm_num,
      findMaxLoop_step_some oracleStartHigh 40000 20000 (0, 1) 1 (by norm_num) h20,
      if_neg (by norm_num)]
    rw [show (20000 : ℤ) + 5000 = 25000 from by norm_num,
      findMaxLoop_step_none oracleStartHigh 40000 25000 (0, 1) (by norm_num)
        (hv 25000 (by norm_num))]
    rw [show (25000 : ℤ) + 5000 = 30000 from by norm_num,
      findMaxLoop_step_none oracleStartHigh 40000 30000 (0, 1) (by norm_num)
        (hv 30000 (by norm_num))]
    rw [show (30000 : ℤ) + 5000 = 35000 from by norm_num,
      findMaxLoop_step_none oracleStartHigh 40000 35000 (0, 1) (by norm_num)
        (hv 35000 (by norm_num))]
    rw [show (35000 : ℤ) + 5000 = 40000 from by norm_num,
      findMaxLoop_step_some oracleStartHigh 40000 40000 (0, 1) (-1) (by norm_num) h40,
      if_neg (by norm_num)]
    rw [show (40000 : ℤ) + 5000 = 45000 from by norm_num,
      findMaxLoop_end oracleStartHigh 40000 45000 (0, 1) (by norm_num)]
  rw [scanPasses_eq, h0]
  simp only [Option.getD_some]
  rw [decide_eq_true (by norm_num : (0 : ℚ) < 1), if_pos (by norm_num : (0 : ℚ) < 1)]
  rw [show (0 : ℤ) + 20000 = 20000 from by norm_num]
  rw [scanLoop_step_quiet oracleStartHigh 60000 1 20000 0 1 true (some 0) [] 1
    (by norm_num) h20 (fun hc _ => by cases hc) (fun _ hc => absurd hc.2 (by norm_num))]
  rw [show (20000 : ℤ) + 20000 = 40000 from by norm_num]
  rw [scanLoop_step_down_push oracleStartHigh 60000 1 40000 20000 1 true [] (-1) 0
    (by norm_num) h40 rfl (by norm_num) (by norm_num) (by rw [hrf]; norm_num)]
  rw [hrf]
  rw [if_pos (by norm_num)]
  rw [hmk]
  rfl

theorem refineOr_left_none (f : Oracle) (t0 t1 : ℤ) (h : f t0 = none) :
    refineOr f t0 t1 = t1 := by
  unfold refineOr bisectCrossingTime
  rcases h1 : f t1 with _ | eb <;> simp only [h, h1] <;> rfl

/-! ## A concrete run: window-start sample unresolvable, first valid sample
above the horizon. -/

theorem oracleGapStart_run :
    scanPasses oracleGapStart 0 60000 1 = [⟨20000, 40000, 20000, 5⟩] := by
  have g0 : oracleGapStart 0 = none := by norm_num [oracleGapStart]
  have g20 : oracleGapStart 20000 = some 5 := by norm_num [oracleGapStart]
  have g40 : oracleGapStart 40000 = some (-1) := by norm_num [oracleGapStart]
  have gv : ∀ t : ℤ, t = 25000 ∨ t = 30000 ∨ t = 35000 → oracleGapStart t = none := by
    intro t ht
    unfold oracleGapStart
    rw [if_neg (by omega), if_neg (by omega)]
  have hrfu : refineOr oracleGapStart 0 20000 = 20000 := refineOr_left_none _ _ _ g0
  have hrfd : refineOr oracleGapStart 20000 40000 = 40000 := by
    apply refineOr_mid_none
    have hm : ((((20000 : ℤ)) : ℚ) + (((40000 : ℤ)) : ℚ)) / 2 = ((30000 : ℤ) : ℚ) := by
      push_cast
      norm_num
    rw [hm, jsTrunc_intCast]
    exact gv 30000 (by norm_num)
  have hmk : mkPass oracleGapStart 20000 40000 = ⟨20000, 40000, 20000, 5⟩ := by
    unfold mkPass findMaxElevation
    rw [findMaxLoop_step_some oracleGapStart 40000 20000 (20000, -999) 5 (by norm_num) g20,
      if_pos (by norm_num)]
    rw [show (20000 : ℤ) + 5000 = 25000 from by norm_num,
      findMaxLoop_step_none oracleGapStart 40000 25000 (20000, 5) (by norm_num)
        (gv 25000 (by norm_num))]
    rw [show (25000 : ℤ) + 5000 = 30000 from by norm_num,
      findMaxLoop_step_none oracleGapStart 40000 30000 (20000, 5) (by norm_num)
        (gv 30000 (by norm_num))]
    rw [show (30000 : ℤ) + 5000 = 35000 from by norm_num,
      findMaxLoop_step_none oracleGapStart 40000 35000 (20000, 5) (by norm_num)
        (gv 35000 (by norm_num))]
    rw [show (35000 : ℤ) + 5000 = 40000 from by norm_num,
      findMaxLoop_step_some oracleGapStart 40000 40000 (20000, 5) (-1) (by norm_num) g40,
      if_neg (by norm_num)]
    rw [show (40000 : ℤ) + 5000 = 45000 from by norm_num,
      findMaxLoop_end oracleGapStart 40000 45000 (20000, 5) (by norm_num)]
  rw [scanPasses_eq, g0]
  simp only [Option.getD_none]
  rw [decide_eq_false (by norm_num : ¬(0 : ℚ) < -999), if_neg (by norm_num : ¬(0 : ℚ) < -999)]
  rw [show (0 : ℤ) + 20000 = 20000 from by norm_num]
  rw [scanLoop_step_up oracleGapStart 60000 1 20000 0 (-999) false none [] 5
    (by norm_num) g20 rfl (by norm_num) (by norm_num)]
  rw [hrfu]
  rw [show (20000 : ℤ) + 20000 = 40000 from by norm_num]
  rw [scanLoop_step_down_push oracleGapStart 60000 1 40000 20000 5 true [] (-1) 20000
    (by norm_num) g40 rfl (by norm_num) (by norm_num) (by rw [hrfd]; norm_num)]
  rw [hrfd, if_pos (by norm_num), hmk]
  rfl

/-! ## A concrete run with a refined off-grid AOS whose pass bracket holds
no non-negative sample. -/

theorem oracleSpike_run :
    ∃ l : ℤ, 40000 ≤ l ∧ l ≤ 40001 ∧
      scanPasses oracleSpike 0 60000 1 = [⟨39999, l, 39999, -1⟩] := by
  have s0 : oracleSpike 0 = some (-1) := by norm_num [oracleSpike]
  have s20 : oracleSpike 20000 = some (-1) := by norm_num [oracleSpike]
  have s40 : oracleSpike 40000 = some 1 := by norm_num [oracleSpike]
  have s60 : oracleSpike 60000 = some (-1) := by norm_num [oracleSpike]
  have s39999 : oracleSpike 39999 = some (-1) := by norm_num [oracleSpike]
  have hrfu : refineOr oracleSpike 20000 40000 = 39999 := by
    unfold refineOr
    rw [oracleSpike_bisect_up]
    rfl
  obtain ⟨r, hr, hr1, hr2⟩ := bisectCrossingTime_conv_pos oracleSpike 40000 60000 40001
    (by norm_num) (by norm_num) (by norm_num) (by norm_num)
    (by
      intro t h1 h2
      obtain rfl : t = 40000 := by omega
      exact ⟨1, s40, by norm_num⟩)
    (by
      intro t h1 h2
      exact ⟨-1, by norm_num [oracleSpike, show t ≠ 40000 by omega], by norm_num⟩)
  have hrfd : refineOr oracleSpike 40000 60000 = r := by
    unfold refineOr
    rw [hr]
    rfl
  have hmk : mkPass oracleSpike 39999 r = ⟨39999, r, 39999, -1⟩ := by
    unfold mkPass findMaxElevation
    rw [findMaxLoop_step_some oracleSpike r 39999 (39999, -999) (-1) (by omega) s39999,
      if_pos (by norm_num)]
    rw [show (39999 : ℤ) + 5000 = 44999 from by norm_num,
      findMaxLoop_end oracleSpike r 44999 (39999, -1) (by omega)]
  refine ⟨r, by omega, by omega, ?_⟩
  rw [scanPasses_eq, s0]
  simp only [Option.getD_some]
  rw [decide_eq_false (by norm_num : ¬(0 : ℚ) < -1), if_neg (by norm_num : ¬(0 : ℚ) < -1)]
  rw [show (0 : ℤ) + 20000 = 20000 from by norm_num]
  rw [scanLoop_step_quiet oracleSpike 60000 1 20000 0 (-1) false none [] (-1)
    (by norm_num) s20 (fun _ hc => absurd hc.2 (by norm_num)) (fun hc _ => by cases hc)]
  rw [show (20000 : ℤ) + 20000 = 40000 from by norm_num]
  rw [scanLoop_step_up oracleSpike 60000 1 40000 20000 (-1) false none [] 1
    (by norm_num) s40 rfl (by norm_num) (by norm_num)]
  rw [hrfu]
  rw [show (40000 : ℤ) + 20000 = 60000 from by norm_num]
  rw [scanLoop_step_down_push oracleSpike 60000 1 60000 40000 1 true [] (-1) 39999
    (by norm_num) s60 rfl (by norm_num) (by norm_num) (by rw [hrfd]; omega)]
  rw [hrfd, if_pos (by norm_num), hmk]
  rfl

/-! ## A concrete run whose peak lands exactly on the refined LOS. -/

theorem oracleRamp_findMax :
    findMaxElevation oracleRamp 39999 59999 = (59999, 20000) := by
  have rneg : ∀ t : ℤ, t < 40000 → oracleRamp t = some (-1) := by
    intro t ht
    unfold oracleRamp
    rw [if_pos ht]
  have rpos : ∀ t : ℤ, 40000 ≤ t → t < 60000 → oracleRamp t = some ((t : ℚ) - 39999) := by
    intro t h1 h2
    unfold oracleRamp
    rw [if_neg (by omega), if_pos h2]
  have rv : ∀ t : ℤ, 40000 ≤ t → t < 60000 → ∀ q : ℚ, ((t : ℚ) - 39999 = q) →
      oracleRamp t = some q := by
    intro t h1 h2 q hq
    rw [rpos t h1 h2, hq]
  unfold findMaxElevation
  rw [findMaxLoop_step_some oracleRamp 59999 39999 (39999, -999) (-1) (by norm_num)
    (rneg 39999 (by norm_num)), if_pos (by norm_num)]
  rw [show (39999 : ℤ) + 5000 = 44999 from by norm_num,
    findMaxLoop_step_some oracleRamp 59999 44999 (39999, -1) 5000 (by norm_num)
      (rv 44999 (by norm_num) (by norm_num) 5000 (by push_cast; norm_num)),
    if_pos (by norm_num)]
  rw [show (44999 : ℤ) + 5000 = 49999 from by norm_num,
    findMaxLoop_step_some oracleRamp 59999 49999 (44999, 5000) 10000 (by norm_num)
      (rv 49999 (by norm_num) (by norm_num) 10000 (by push_cast; norm_num)),
    if_pos (by norm_num)]
  rw [show (49999 : ℤ) + 5000 = 54999 from by norm_num,
    findMaxLoop_step_some oracleRamp 59999 54999 (49999, 10000) 15000 (by norm_num)
      (rv 54999 (by norm_num) (by norm_num) 15000 (by push_cast; norm_num)),
    if_pos (by norm_num)]
  rw [show (54999 : ℤ) + 5000 = 59999 from by norm_num,
    findMaxLoop_step_some oracleRamp 59999 59999 (54999, 15000) 20000 (by norm_num)
      (rv 59999 (by norm_num) (by norm_num) 20000 (by push_cast; norm_num)),
    if_pos (by norm_num)]
  rw [show (59999 : ℤ) + 5000 = 64999 from by norm_num,
    findMaxLoop_end oracleRamp 59999 64999 (59999, 20000) (by norm_num)]

theorem oracleRamp_run :
    scanPasses oracleRamp 0 60000 1 = [⟨39999, 59999, 59999, 20000⟩] := by
  have r0 : oracleRamp 0 = some (-1) := by norm_num [oracleRamp]
  have r20 : oracleRamp 20000 = some (-1) := by norm_num [oracleRamp]
  have r40 : oracleRamp 40000 = some 1 := by norm_num [oracleRamp]
  have r60 : oracleRamp 60000 = some (-1) := by norm_num [oracleRamp]
  have rneg : ∀ t : ℤ, t < 40000 → oracleRamp t = some (-1) := by
    intro t ht
    unfold oracleRamp
    rw [if_pos ht]
  have rpos : ∀ t : ℤ, 40000 ≤ t → t < 60000 → oracleRamp t = some ((t : ℚ) - 39999) := by
    intro t h1 h2
    unfold oracleRamp
    rw [if_neg (by omega), if_pos h2]
  have hrfu : refineOr oracleRamp 20000 40000 = 39999 := by
    unfold refineOr
    rw [show (39999 : ℤ) = 40000 - 1 from by norm_num]
    rw [bisectCrossingTime_march_neg oracleRamp 20000 40000 (by norm_num) (by norm_num)
      (by norm_num) 1 r40
      (fun t h1 h2 => ⟨-1, rneg t h2, by norm_num⟩)]
    rfl
  have hrfd : refineOr oracleRamp 40000 60000 = 59999 := by
    unfold refineOr
    rw [show (59999 : ℤ) = 60000 - 1 from by norm_num]
    rw [bisectCrossingTime_march_pos oracleRamp 40000 60000 (by norm_num) (by norm_num)
      (by norm_num) (-1) r60
      (fun t h1 h2 => ⟨(t : ℚ) - 39999, rpos t h1 h2, by
        have : (39999 : ℚ) < (t : ℚ) := by exact_mod_cast (by omega : (39999 : ℤ) < t)
        linarith⟩)]
    rfl
  have hmk : mkPass oracleRamp 39999 59999 = ⟨39999, 59999, 59999, 20000⟩ := by
    unfold mkPass
    rw [oracleRamp_findMax]
  rw [scanPasses_eq, r0]
  simp only [Option.getD_some]
  rw [decide_eq_false (by norm_num : ¬(0 : ℚ) < -1), if_neg (by norm_num : ¬(0 : ℚ) < -1)]
  rw [show (0 : ℤ) + 20000 = 20000 from by norm_num]
  rw [scanLoop_step_quiet oracleRamp 60000 1 20000 0 (-1) false none [] (-1)
    (by norm_num) r20 (fun _ hc => absurd hc.2 (by norm_num)) (fun hc _ => by cases hc)]
  rw [show (20000 : ℤ) + 20000 = 40000 from by norm_num]
  rw [scanLoop_step_up oracleRamp 60000 1 40000 20000 (-1) false none [] 1
    (by norm_num) r40 rfl (by norm_num) (by norm_num)]
  rw [hrfu]
  rw [show (40000 : ℤ) + 20000 = 60000 from by norm_num]
  rw [scanLoop_step_down_push oracleRamp 60000 1 60000 40000 1 true [] (-1) 39999
    (by norm_num) r60 rfl (by norm_num) (by norm_num) (by rw [hrfd]; norm_num)]
  rw [hrfd, if_pos (by norm_num), hmk]
  rfl

/-! ## A concrete run with two one-tick passes (for the pass cap). -/

theorem oracleTicksOnly_run2 :
    scanPasses oracleTicksOnly 0 80000 2 =
      [mkPass oracleTicksOnly 20000 40000, mkPass oracleTicksOnly 60000 80000] := by
  have k0 : oracleTicksOnly 0 = some (-1) := by norm_num [oracleTicksOnly]
  have k20 : oracleTicksOnly 20000 = some 1 := by norm_num [oracleTicksOnly]
  have k40 : oracleTicksOnly 40000 = some (-1) := by norm_num [oracleTicksOnly]
  have k60 : oracleTicksOnly 60000 = some 1 := by norm_num [oracleTicksOnly]
  have k80 : oracleTicksOnly 80000 = some (-1) := by norm_num [oracleTicksOnly]
  have hmid : ∀ t0 t1 m : ℤ, (((t0 : ℚ)) + ((t1 : ℚ))) / 2 = ((m : ℚ)) → ¬m % 20000 = 0 →
      refineOr oracleTicksOnly t0 t1 = t1 := by
    intro t0 t1 m hm hmod
    apply refineOr_mid_none
    rw [hm, jsTrunc_intCast]
    unfold oracleTicksOnly
    rw [if_neg hmod]
  have hrf1 : refineOr oracleTicksOnly 0 20000 = 20000 :=
    hmid 0 20000 10000 (by push_cast; norm_num) (by norm_num)
  have hrf2 : refineOr oracleTicksOnly 20000 40000 = 40000 :=
    hmid 20000 40000 30000 (by push_cast; norm_num) (by norm_num)
  have hrf3 : refineOr oracleTicksOnly 40000 60000 = 60000 :=
    hmid 40000 60000 50000 (by push_cast; norm_num) (by norm_num)
  have hrf4 : refineOr oracleTicksOnly 60000 80000 = 80000 :=
    hmid 60000 80000 70000 (by push_cast; norm_num) (by norm_num)
  rw [scanPasses_eq, k0]
  simp only [Option.getD_some]
  rw [decide_eq_false (by norm_num : ¬(0 : ℚ) < -1), if_neg (by norm_num : ¬(0 : ℚ) < -1)]
  rw [show (0 : ℤ) + 20000 = 20000 from by norm_num]
  rw [scanLoop_step_up oracleTicksOnly 80000 2 20000 0 (-1) false none [] 1
    (by norm_num) k20 rfl (by norm_num) (by norm_num)]
  rw [hrf1]
  rw [show (20000 : ℤ) + 20000 = 40000 from by norm_num]
  rw [scanLoop_step_down_push oracleTicksOnly 80000 2 40000 20000 1 true [] (-1) 20000
    (by norm_num) k40 rfl (by norm_num) (by norm_num) (by rw [hrf2]; norm_num)]
  rw [hrf2]
  rw [if_neg (by norm_num)]
  rw [show (40000 : ℤ) + 20000 = 60000 from by norm_num, List.nil_append]
  rw [scanLoop_step_up oracleTicksOnly 80000 2 60000 40000 (-1) false none
    [mkPass oracleTicksOnly 20000 40000] 1 (by norm_num) k60 rfl (by norm_num) (by norm_num)]
  rw [hrf3]
  rw [show (60000 : ℤ) + 20000 = 80000 from by norm_num]
  rw [scanLoop_step_down_push oracleTicksOnly 80000 2 80000 60000 1 true
    [mkPass oracleTicksOnly 20000 40000] (-1) 60000
    (by norm_num) k80 rfl (by norm_num) (by norm_num) (by rw [hrf4]; norm_num)]
  rw [hrf4]
  rw [if_pos (by norm_num)]
  rfl

/-- Counterexample to C1 as stated.  Two concrete runs over the window
`[0, 60000]` with one pass each: on `oracleSpike` the emitted pass has
`tca = aos` (the `-999` seed means ties keep the first sample) and a peak
elevation of `-1 < 0`, because the refined AOS 39999 is off the 5-second
grid of any non-negative sample; on `oracleRamp` the emitted pass has
`tca = los` (the ramp peaks exactly at the refined LOS 59999).  Hence
neither `aos < tca < los` nor `maxElevationDeg ≥ 0` holds of every emitted
pass. -/
theorem scan_pass_invariants_counterexample :
    (∃ l : ℤ, scanPasses oracleSpike 0 60000 1 =
      [{ aos := 39999, los := l, tca := 39999, maxElev := -1 }] ∧
      ∀ p ∈ scanPasses oracleSpike 0 60000 1, ¬(p.aos < p.tca) ∧ p.maxElev < 0) ∧
    (scanPasses oracleRamp 0 60000 1 =
      [{ aos := 39999, los := 59999, tca := 59999, maxElev := 20000 }] ∧
      ∀ p ∈ scanPasses oracleRamp 0 60000 1, ¬(p.tca < p.los)) := by
  obtain ⟨l, hl1, hl2, hrun⟩ := oracleSpike_run
  refine ⟨⟨l, hrun, ?_⟩, oracleRamp_run, ?_⟩
  · intro p hp
    rw [hrun] at hp
    obtain rfl : p = { aos := 39999, los := l, tca := 39999, maxElev := -1 } := by
      simpa using hp
    exact ⟨by norm_num, by norm_num⟩
  · intro p hp
    rw [oracleRamp_run] at hp
    obtain rfl : p = { aos := 39999, los := 59999, tca := 59999, maxElev := 20000 } := by
      simpa using hp
    norm_num

/-- Witness for the amended C1 at a concrete emitted pass. -/
theorem scan_pass_invariants_witness :
    scanPasses oracleStartHigh 0 60000 1 = [⟨0, 40000, 0, 1⟩] ∧
      (0 : ℤ) < 40000 ∧ (0 : ℤ) ≤ 0 ∧ (0 : ℤ) ≤ 40000 ∧ (-999 : ℚ) ≤ 1 := by
  refine ⟨oracleStartHigh_run, ?_⟩
  have h := scan_pass_invariants oracleStartHigh 0 60000 1 ⟨0, 40000, 0, 1⟩
    (by rw [oracleStartHigh_run]; exact List.mem_singleton.mpr rfl)
  exact ⟨h.1, h.2.1, h.2.2.1, h.2.2.2.1⟩

/-- Witness for C4 at a concrete input: `oracleTicksOnly` yields two
qualifying passes with budget 2, and with budget `k = 1` exactly one pass
is returned. -/
theorem maxPasses_cap_witness :
    (1 : ℕ) ≤ 1 ∧ 1 < (scanPasses oracleTicksOnly 0 80000 2).length ∧
      (scanPasses oracleTicksOnly 0 80000 1).length = 1 := by
  have hlen : 1 < (scanPasses oracleTicksOnly 0 80000 2).length := by
    rw [oracleTicksOnly_run2]
    norm_num
  exact ⟨le_rfl, hlen, (maxPasses_cap oracleTicksOnly 0 80000 1 le_rfl hlen).1⟩

/-! ## Claim C7: the seeding of the "currently above horizon" flag. -/

theorem scanLoop_first_aos (f : Oracle) (endMs : ℤ) (n : ℕ) (tMs prevT : ℤ) (prevE : ℚ)
    (s : ℤ) (p : Pass) (rest : List Pass)
    (hs : s < prevT) (hpt : prevT < tMs) (hprevE : 0 < prevE)
    (hres : scanLoop f endMs n tMs prevT prevE true (some s) [] = p :: rest) :
    p.aos = s := by
  by_cases h : tMs ≤ endMs
  · rcases hfm : f tMs with _ | e
    · rw [scanLoop_step_none f endMs n tMs prevT prevE true (some s) [] h hfm] at hres
      exact scanLoop_first_aos f endMs n (tMs + 20000) prevT prevE s p rest hs
        (by omega) hprevE hres
    · by_cases hdown : e ≤ 0
      · have hguard : s < refineOr f prevT tMs :=
          lt_of_lt_of_le hs (refineOr_range f prevT tMs (le_of_lt hpt)).1
        rw [scanLoop_step_down_push f endMs n tMs prevT prevE true [] e s h hfm rfl
          hprevE hdown hguard] at hres
        split at hres
        · obtain rfl : p = mkPass f s (refineOr f prevT tMs) := by
            rw [List.nil_append] at hres
            exact (List.cons.injEq .. ▸ hres).1.symm
          rfl
        · obtain ⟨suf, hsuf⟩ := scanLoop_append f endMs n (tMs + 20000) tMs e false none
            ([] ++ [mkPass f s (refineOr f prevT tMs)])
          rw [hsuf, List.nil_append, List.cons_append] at hres
          obtain rfl : p = mkPass f s (refineOr f prevT tMs) :=
            (List.cons.injEq .. ▸ hres).1.symm
          rfl
      · rw [scanLoop_step_quiet f endMs n tMs prevT prevE true (some s) [] e h hfm
          (fun hc _ => by cases hc) (fun _ hc => absurd hc.2 hdown)] at hres
        exact scanLoop_first_aos f endMs n (tMs + 20000) tMs e s p rest
          (lt_trans hs hpt) (by omega) (lt_of_not_le (fun hc => hdown hc)) hres
  · rw [scanLoop_stop f endMs n tMs prevT prevE true (some s) [] h] at hres
    cases hres
termination_by (endMs + 1 - tMs).toNat
decreasing_by all_goals omega

/-- Counterexample to C7 as stated.  For `oracleGapStart` the window-start
sample is `null` and the first valid sample — at t = 20000, elevation 5 > 0
— comes later; the scan is NOT seeded from that first valid sample: it
starts below the horizon (null is treated as elevation `-999`) and the
emitted pass has AOS 20000, the fallback coarse tick of the detected upward
crossing, not the window start 0. -/
theorem seed_from_start_counterexample :
    oracleGapStart 0 = none ∧ oracleGapStart 20000 = some 5 ∧ (0 : ℚ) < 5 ∧
      scanPasses oracleGapStart 0 60000 1 = [⟨20000, 40000, 20000, 5⟩] ∧
      ∀ p ∈ scanPasses oracleGapStart 0 60000 1, p.aos ≠ 0 := by
  refine ⟨by norm_num [oracleGapStart], by norm_num [oracleGapStart], by norm_num,
    oracleGapStart_run, ?_⟩
  intro p hp
  rw [oracleGapStart_run] at hp
  obtain rfl : p = (⟨20000, 40000, 20000, 5⟩ : Pass) := by simpa using hp
  norm_num

/-- C7 as amended: the flag is seeded from the sign of the sample at the
window start itself, a `null` start sample counting as `-999` (below the
horizon).  When the start sample is valid with elevation > 0 — and the
first coarse tick is also valid and above the horizon, ruling out a
degenerate zero-length bracket at the very first tick — the scan starts
in-pass and the first emitted pass, if any, has AOS equal to the window
start. -/
theorem seed_from_start_amended (f : Oracle) (startMs endMs : ℤ) (n : ℕ) (e0 e1 : ℚ)
    (p : Pass) (rest : List Pass)
    (h0 : f startMs = some e0) (he0 : 0 < e0)
    (h1 : f (startMs + 20000) = some e1) (he1 : 0 < e1)
    (hres : scanPasses f startMs endMs n = p :: rest) :
    p.aos = startMs := by
  rw [scanPasses_eq, h0] at hres
  simp only [Option.getD_some] at hres
  rw [decide_eq_true he0, if_pos he0] at hres
  by_cases hend : startMs + 20000 ≤ endMs
  · rw [scanLoop_step_quiet f endMs n (startMs + 20000) startMs e0 true (some startMs) []
      e1 hend h1 (fun hc _ => by cases hc) (fun _ hc => absurd hc.2 (not_le.mpr he1))]
      at hres
    exact scanLoop_first_aos f endMs n (startMs + 20000 + 20000) (startMs + 20000) e1
      startMs p rest (by omega) (by omega) he1 hres
  · rw [scanLoop_stop f endMs n (startMs + 20000) startMs e0 true (some startMs) [] hend]
      at hres
    cases hres

/-- Witness for the amended C7: `oracleStartHigh` is above the horizon at
the window start and the first tick, and its single emitted pass has AOS
equal to the window start 0. -/
theorem seed_from_start_amended_witness :
    oracleStartHigh 0 = some 1 ∧ (0 : ℚ) < 1 ∧
      scanPasses oracleStartHigh 0 60000 1 = [⟨0, 40000, 0, 1⟩] ∧
      (Pass.mk 0 40000 0 1).aos = 0 := by
  refine ⟨by norm_num [oracleStartHigh], by norm_num, oracleStartHigh_run, ?_⟩
  exact seed_from_start_amended oracleStartHigh 0 60000 1 1 1 ⟨0, 40000, 0, 1⟩ []
    (by norm_num [oracleStartHigh]) (by norm_num)
    (by norm_num [oracleStartHigh]) (by norm_num) oracleStartHigh_run

/-- Witness for C8 at a concrete bracket: on `[39999, 59999]` the ramp
oracle peaks at the last grid sample 59999 with elevation 20000, which is a
grid sample carrying its own elevation. -/
theorem findMaxElevation_first_max_witness :
    findMaxElevation oracleRamp 39999 59999 = (59999, 20000) ∧
      onFineGrid 39999 59999 (findMaxElevation oracleRamp 39999 59999).1 ∧
      oracleRamp (findMaxElevation oracleRamp 39999 59999).1 =
        some (findMaxElevation oracleRamp 39999 59999).2 := by
  have h := findMaxElevation_first_max oracleRamp 39999 59999
    ⟨39999, -1, by
      unfold onFineGrid
      refine ⟨le_rfl, by norm_num, by norm_num⟩, by norm_num [oracleRamp], by norm_num⟩
  exact ⟨oracleRamp_findMax, h.1, h.2.1⟩

/-! ## Claim C9: scanning a gappy oracle.  Phase characterizations of the
scan over a single-arc profile, for the full oracle and for its gappy
modification. -/

theorem gappy_none (f : Oracle) (s t : ℤ) (h : (t - s) % 40000 = 20000) :
    gappy f s t = none := by
  unfold gappy
  rw [if_pos h]

theorem gappy_eq (f : Oracle) (s t : ℤ) (h : ¬(t - s) % 40000 = 20000) :
    gappy f s t = f t := by
  unfold gappy
  rw [if_neg h]

theorem mkPass_aos (f : Oracle) (a l : ℤ) : (mkPass f a l).aos = a := rfl

theorem mkPass_los (f : Oracle) (a l : ℤ) : (mkPass f a l).los = l := rfl

theorem scanLoop_arc_fall (f : Oracle) (g : ℤ → ℚ) (endMs c d : ℤ) (n : ℕ)
    (tMs prevT A : ℤ)
    (htot : ∀ t, f t = some (g t)) (harc : SingleArc g c d)
    (hcd : c + 40000 < d) (hde : d + 20000 ≤ endMs)
    (heq : tMs = prevT + 20000) (hc : c < prevT) (hd : prevT < d)
    (hA : A ≤ c + 20000) :
    ∃ L, scanLoop f endMs n tMs prevT (g prevT) true (some A) [] = [mkPass f A L] ∧
      d - 20000 ≤ L ∧ L ≤ d + 20000 := by
  have hposPrev : 0 < g prevT := harc.2.1 prevT hc hd
  by_cases hdt : tMs < d
  · have hpos : 0 < g tMs := harc.2.1 tMs (by omega) hdt
    rw [scanLoop_step_quiet f endMs n tMs prevT (g prevT) true (some A) [] (g tMs)
      (by omega) (htot tMs) (fun hc1 _ => by cases hc1)
      (fun _ hc2 => absurd hc2.2 (not_le.mpr hpos))]
    exact scanLoop_arc_fall f g endMs c d n (tMs + 20000) tMs A htot harc hcd hde rfl
      (by omega) hdt hA
  · have hneg : g tMs ≤ 0 := harc.2.2 tMs (by omega)
    have hro := refineOr_range f prevT tMs (by omega)
    have hguard : A < refineOr f prevT tMs := by omega
    rw [scanLoop_step_down_push f endMs n tMs prevT (g prevT) true [] (g tMs) A
      (by omega) (htot tMs) rfl hposPrev hneg hguard]
    refine ⟨refineOr f prevT tMs, ?_, by omega, by omega⟩
    split
    · rw [List.nil_append]
    · rw [List.nil_append]
      exact scanLoop_stay_out f endMs n (tMs + 20000) tMs (g tMs) none
        [mkPass f A (refineOr f prevT tMs)]
        (fun t e ht hfe => by
          rw [htot t] at hfe
          obtain rfl : g t = e := by injection hfe
          exact harc.2.2 t (by omega))
termination_by (endMs + 1 - tMs).toNat
decreasing_by all_goals omega

theorem scanLoop_arc_rise (f : Oracle) (g : ℤ → ℚ) (endMs c d s0 : ℤ) (n : ℕ)
    (tMs prevT : ℤ)
    (htot : ∀ t, f t = some (g t)) (harc : SingleArc g c d)
    (hcd : c + 40000 < d) (hde : d + 20000 ≤ endMs)
    (heq : tMs = prevT + 20000) (hpc : prevT ≤ c)
    (hal : (tMs - s0) % 20000 = 0) :
    ∃ tu L, scanLoop f endMs n tMs prevT (g prevT) false none [] =
        [mkPass f (refineOr f (tu - 20000) tu) L] ∧
      c < tu ∧ tu ≤ c + 20000 ∧ (tu - s0) % 20000 = 0 ∧
      d - 20000 ≤ L ∧ L ≤ d + 20000 := by
  have hnegPrev : g prevT ≤ 0 := harc.1 prevT hpc
  by_cases htc : tMs ≤ c
  · have hneg : g tMs ≤ 0 := harc.1 tMs htc
    rw [scanLoop_step_quiet f endMs n tMs prevT (g prevT) false none [] (g tMs)
      (by omega) (htot tMs) (fun _ hc2 => absurd hc2.2 (not_lt.mpr hneg))
      (fun hc1 _ => by cases hc1)]
    exact scanLoop_arc_rise f g endMs c d s0 n (tMs + 20000) tMs htot harc hcd hde rfl
      htc (by omega)
  · have hpos : 0 < g tMs := harc.2.1 tMs (by omega) (by omega)
    rw [scanLoop_step_up f endMs n tMs prevT (g prevT) false none [] (g tMs)
      (by omega) (htot tMs) rfl hnegPrev hpos]
    obtain ⟨L, hL, h1, h2⟩ := scanLoop_arc_fall f g endMs c d n (tMs + 20000) tMs
      (refineOr f prevT tMs) htot harc hcd hde rfl (by omega) (by omega)
      (le_trans (refineOr_range f prevT tMs (by omega)).2 (by omega))
    refine ⟨tMs, L, ?_, by omega, by omega, hal, h1, h2⟩
    rw [show tMs - 20000 = prevT from by omega]
    exact hL
termination_by (endMs + 1 - tMs).toNat
decreasing_by all_goals omega

theorem scanLoop_gappy_fall (f : Oracle) (g : ℤ → ℚ) (endMs c d s : ℤ) (n : ℕ)
    (tMs prevT A : ℤ)
    (htot : ∀ t, f t = some (g t)) (harc : SingleArc g c d)
    (hcd : c + 80000 < d) (hde : d + 40000 ≤ endMs)
    (hal : (prevT - s) % 40000 = 0) (halt : (tMs - s) % 20000 = 0)
    (hlt : prevT < tMs) (hle : tMs ≤ prevT + 40000)
    (hc : c < prevT) (hd : prevT < d) (hA : A ≤ c + 40000) :
    ∃ L, scanLoop (gappy f s) endMs n tMs prevT (g prevT) true (some A) [] =
        [mkPass (gappy f s) A L] ∧ d ≤ L ∧ L < d + 40000 ∧ (L - s) % 40000 = 0 := by
  have hposPrev : 0 < g prevT := harc.2.1 prevT hc hd
  by_cases hval : (tMs - s) % 40000 = 20000
  · rw [scanLoop_step_none (gappy f s) endMs n tMs prevT (g prevT) true (some A) []
      (by omega) (gappy_none f s tMs hval)]
    exact scanLoop_gappy_fall f g endMs c d s n (tMs + 20000) prevT A htot harc hcd hde
      hal (by omega) (by omega) (by omega) hc hd hA
  · have htm : tMs = prevT + 40000 := by omega
    have hfv : gappy f s tMs = some (g tMs) := by
      rw [gappy_eq f s tMs hval]
      exact htot tMs
    by_cases hdt : tMs < d
    · have hpos : 0 < g tMs := harc.2.1 tMs (by omega) hdt
      rw [scanLoop_step_quiet (gappy f s) endMs n tMs prevT (g prevT) true (some A) []
        (g tMs) (by omega) hfv (fun hc1 _ => by cases hc1)
        (fun _ hc2 => absurd hc2.2 (not_le.mpr hpos))]
      exact scanLoop_gappy_fall f g endMs c d s n (tMs + 20000) tMs A htot harc hcd hde
        (by omega) (by omega) (by omega) (by omega) (by omega) hdt hA
    · have hneg : g tMs ≤ 0 := harc.2.2 tMs (by omega)
      have hrf : refineOr (gappy f s) prevT tMs = tMs := by
        apply refineOr_mid_none
        have hmmid : (((prevT : ℤ) : ℚ) + ((tMs : ℤ) : ℚ)) / 2 =
            (((prevT + 20000 : ℤ)) : ℚ) := by
          rw [htm]
          push_cast
          ring
        rw [hmmid, jsTrunc_intCast]
        exact gappy_none f s (prevT + 20000) (by omega)
      rw [scanLoop_step_down_push (gappy f s) endMs n tMs prevT (g prevT) true []
        (g tMs) A (by omega) hfv rfl hposPrev hneg (by rw [hrf]; omega)]
      rw [hrf]
      refine ⟨tMs, ?_, by omega, by omega, by omega⟩
      split
      · rw [List.nil_append]
      · rw [List.nil_append]
        exact scanLoop_stay_out (gappy f s) endMs n (tMs + 20000) tMs (g tMs) none
          [mkPass (gappy f s) A tMs]
          (fun t e ht hfe => by
            unfold gappy at hfe
            split at hfe
            · cases hfe
            · rw [htot t] at hfe
              obtain rfl : g t = e := by injection hfe
              exact harc.2.2 t (by omega))
termination_by (endMs + 1 - tMs).toNat
decreasing_by all_goals omega

theorem scanLoop_gappy_rise (f : Oracle) (g : ℤ → ℚ) (endMs c d s : ℤ) (n : ℕ)
    (tMs prevT : ℤ)
    (htot : ∀ t, f t = some (g t)) (harc : SingleArc g c d)
    (hcd : c + 80000 < d) (hde : d + 40000 ≤ endMs)
    (hal : (prevT - s) % 40000 = 0) (halt : (tMs - s) % 20000 = 0)
    (hlt : prevT < tMs) (hle : tMs ≤ prevT + 40000) (hpc : prevT ≤ c) :
    ∃ A L, scanLoop (gappy f s) endMs n tMs prevT (g prevT) false none [] =
        [mkPass (gappy f s) A L] ∧ c < A ∧ A ≤ c + 40000 ∧ (A - s) % 40000 = 0 ∧
        d ≤ L ∧ L < d + 40000 ∧ (L - s) % 40000 = 0 := by
  have hnegPrev : g prevT ≤ 0 := harc.1 prevT hpc
  by_cases hval : (tMs - s) % 40000 = 20000
  · rw [scanLoop_step_none (gappy f s) endMs n tMs prevT (g prevT) false none []
      (by omega) (gappy_none f s tMs hval)]
    exact scanLoop_gappy_rise f g endMs c d s n (tMs + 20000) prevT htot harc hcd hde
      hal (by omega) (by omega) (by omega) hpc
  · have htm : tMs = prevT + 40000 := by omega
    have hfv : gappy f s tMs = some (g tMs) := by
      rw [gappy_eq f s tMs hval]
      exact htot tMs
    by_cases htc : tMs ≤ c
    · have hneg : g tMs ≤ 0 := harc.1 tMs htc
      rw [scanLoop_step_quiet (gappy f s) endMs n tMs prevT (g prevT) false none []
        (g tMs) (by omega) hfv (fun _ hc2 => absurd hc2.2 (not_lt.mpr hneg))
        (fun hc1 _ => by cases hc1)]
      exact scanLoop_gappy_rise f g endMs c d s n (tMs + 20000) tMs htot harc hcd hde
        (by omega) (by omega) (by omega) (by omega) htc
    · have hpos : 0 < g tMs := harc.2.1 tMs (by omega) (by omega)
      have hrf : refineOr (gappy f s) prevT tMs = tMs := by
        apply refineOr_mid_none
        have hmmid : (((prevT : ℤ) : ℚ) + ((tMs : ℤ) : ℚ)) / 2 =
            (((prevT + 20000 : ℤ)) : ℚ) := by
          rw [htm]
          push_cast
          ring
        rw [hmmid, jsTrunc_intCast]
        exact gappy_none f s (prevT + 20000) (by omega)
      rw [scanLoop_step_up (gappy f s) endMs n tMs prevT (g prevT) false none []
        (g tMs) (by omega) hfv rfl hnegPrev hpos]
      rw [hrf]
      obtain ⟨L, hL, h1, h2, h3⟩ := scanLoop_gappy_fall f g endMs c d s n (tMs + 20000)
        tMs tMs htot harc hcd hde (by omega) (by omega) (by omega) (by omega)
        (by omega) (by omega) (by omega)
      exact ⟨tMs, L, hL, by omega, by omega, by omega, h1, h2, h3⟩
termination_by (endMs + 1 - tMs).toNat
decreasing_by all_goals omega

theorem oracleArc_total : ∀ t, oracleArc t = some (arcElev t) := by
  intro t
  unfold oracleArc arcElev
  split_ifs <;> rfl

theorem oracleArc_singleArc : SingleArc arcElev 24999 130000 := by
  refine ⟨?_, ?_, ?_⟩
  · intro t ht
    unfold arcElev
    rw [if_pos (by omega)]
    norm_num
  · intro t h1 h2
    unfold arcElev
    rw [if_neg (by omega), if_pos (by omega)]
    norm_num
  · intro t ht
    unfold arcElev
    rw [if_neg (by omega), if_neg (by omega)]
    norm_num

/-- C9 as amended: for a total single-arc oracle whose pass is wider than
four coarse steps and fits the window, the scan of the oracle and the scan
of its gappy modification each detect the same single crossing pair — one
pass each — with the AOS and LOS of the two runs within three coarse steps
(60 s) of each other.  (The pass records themselves may differ: see the
counterexample.) -/
theorem gappy_same_crossings (f : Oracle) (g : ℤ → ℚ) (startMs endMs c d : ℤ) (n : ℕ)
    (htot : ∀ t, f t = some (g t)) (harc : SingleArc g c d)
    (hsc : startMs ≤ c) (hcd : c + 80000 < d) (hde : d + 40000 ≤ endMs) :
    (scanPasses f startMs endMs n).length = 1 ∧
    (scanPasses (gappy f startMs) startMs endMs n).length = 1 ∧
    (∀ p ∈ scanPasses f startMs endMs n,
      ∀ q ∈ scanPasses (gappy f startMs) startMs endMs n,
        |p.aos - q.aos| ≤ 60000 ∧ |p.los - q.los| ≤ 60000) := by
  have hg0 : g startMs ≤ 0 := harc.1 startMs hsc
  have hfull : ∃ tu L, scanPasses f startMs endMs n =
      [mkPass f (refineOr f (tu - 20000) tu) L] ∧ c < tu ∧ tu ≤ c + 20000 ∧
      d - 20000 ≤ L ∧ L ≤ d + 20000 := by
    rw [scanPasses_eq, htot startMs]
    simp only [Option.getD_some]
    rw [decide_eq_false (not_lt.mpr hg0), if_neg (not_lt.mpr hg0)]
    obtain ⟨tu, L, hres, h1, h2, h3, h4, h5⟩ := scanLoop_arc_rise f g endMs c d startMs n
      (startMs + 20000) startMs htot harc (by omega) (by omega) rfl hsc (by omega)
    exact ⟨tu, L, hres, h1, h2, h4, h5⟩
  have hgap : ∃ A Lg, scanPasses (gappy f startMs) startMs endMs n =
      [mkPass (gappy f startMs) A Lg] ∧ c < A ∧ A ≤ c + 40000 ∧
      d ≤ Lg ∧ Lg < d + 40000 := by
    rw [scanPasses_eq]
    have hseed : gappy f startMs startMs = some (g startMs) := by
      rw [gappy_eq f startMs startMs (by omega)]
      exact htot startMs
    rw [hseed]
    simp only [Option.getD_some]
    rw [decide_eq_false (not_lt.mpr hg0), if_neg (not_lt.mpr hg0)]
    obtain ⟨A, Lg, hres, h1, h2, h3, h4, h5, h6⟩ := scanLoop_gappy_rise f g endMs c d
      startMs n (startMs + 20000) startMs htot harc hcd hde (by omega) (by omega)
      (by omega) (by omega) hsc
    exact ⟨A, Lg, hres, h1, h2, h4, h5⟩
  obtain ⟨tu, L, hres, h1, h2, h4, h5⟩ := hfull
  obtain ⟨A, Lg, hresg, g1, g2, g4, g5⟩ := hgap
  have hA1 : tu - 20000 ≤ refineOr f (tu - 20000) tu :=
    (refineOr_range f (tu - 20000) tu (by omega)).1
  have hA2 : refineOr f (tu - 20000) tu ≤ tu :=
    (refineOr_range f (tu - 20000) tu (by omega)).2
  refine ⟨by rw [hres]; rfl, by rw [hresg]; rfl, ?_⟩
  intro p hp q hq
  rw [hres] at hp
  rw [hresg] at hq
  obtain rfl : p = mkPass f (refineOr f (tu - 20000) tu) L := by simpa using hp
  obtain rfl : q = mkPass (gappy f startMs) A Lg := by simpa using hq
  rw [mkPass_aos, mkPass_aos, mkPass_los, mkPass_los]
  constructor
  · rw [abs_le]
    omega
  · rw [abs_le]
    omega

/-- Counterexample to C9 as stated.  `gappy oracleArc 0` agrees with
`oracleArc` except for returning `null` at every other coarse tick, and
the single nulled ticks are far narrower than the 105-second crossing
region — yet the two runs do not yield the same passes: the full run
refines its AOS to within a millisecond of the true crossing 25000, while
the gappy run's bisection hits a nulled instant as its very first midpoint,
falls back to the coarse tick, and reports AOS 40000. -/
theorem gappy_same_passes_counterexample :
    (∀ t : ℤ, ¬(t - 0) % 40000 = 20000 → gappy oracleArc 0 t = oracleArc t) ∧
    ∃ p q, scanPasses oracleArc 0 200000 1 = [p] ∧
      scanPasses (gappy oracleArc 0) 0 200000 1 = [q] ∧
      p.aos ≤ 25000 ∧ q.aos = 40000 ∧ p ≠ q := by
  have htot := oracleArc_total
  have harc := oracleArc_singleArc
  have hg0 : arcElev 0 ≤ 0 := harc.1 0 (by norm_num)
  obtain ⟨r, hrbis, hr1, hr2⟩ := bisectCrossingTime_conv_neg oracleArc 20000 40000 25000
    (by norm_num) (by norm_num) (by norm_num) (by norm_num)
    (by
      intro t ht1 ht2
      exact ⟨-1, by unfold oracleArc; rw [if_pos (by omega)], by norm_num⟩)
    (by
      intro t ht1 ht2
      exact ⟨1, by unfold oracleArc; rw [if_neg (by omega), if_pos (by omega)], by norm_num⟩)
  have hA : refineOr oracleArc 20000 40000 = r := by
    unfold refineOr
    rw [hrbis]
    rfl
  have hfull : ∃ L, scanPasses oracleArc 0 200000 1 = [mkPass oracleArc r L] := by
    rw [scanPasses_eq, htot 0]
    simp only [Option.getD_some]
    rw [decide_eq_false (not_lt.mpr hg0), if_neg (not_lt.mpr hg0)]
    obtain ⟨tu, L, hres, h1, h2, h3, h4, h5⟩ := scanLoop_arc_rise oracleArc arcElev
      200000 24999 130000 0 1 (0 + 20000) 0 htot harc (by norm_num) (by norm_num) rfl
      (by norm_num) (by norm_num)
    obtain rfl : tu = 40000 := by omega
    rw [show (40000 : ℤ) - 20000 = 20000 from by norm_num, hA] at hres
    exact ⟨L, hres⟩
  have hgap : ∃ Lg, scanPasses (gappy oracleArc 0) 0 200000 1 =
      [mkPass (gappy oracleArc 0) 40000 Lg] := by
    rw [scanPasses_eq]
    have hseed : gappy oracleArc 0 0 = some (arcElev 0) := by
      rw [gappy_eq oracleArc 0 0 (by omega)]
      exact htot 0
    rw [hseed]
    simp only [Option.getD_some]
    rw [decide_eq_false (not_lt.mpr hg0), if_neg (not_lt.mpr hg0)]
    obtain ⟨A, Lg, hres, h1, h2, h3, h4, h5, h6⟩ := scanLoop_gappy_rise oracleArc arcElev
      200000 24999 130000 0 1 (0 + 20000) 0 htot harc (by norm_num) (by norm_num)
      (by norm_num) (by norm_num) (by norm_num) (by norm_num) (by norm_num)
    obtain rfl : A = 40000 := by omega
    exact ⟨Lg, hres⟩
  obtain ⟨L, hres⟩ := hfull
  obtain ⟨Lg, hresg⟩ := hgap
  refine ⟨fun t ht => gappy_eq oracleArc 0 t ht,
    mkPass oracleArc r L, mkPass (gappy oracleArc 0) 40000 Lg, hres, hresg, ?_, rfl, ?_⟩
  · rw [mkPass_aos]
    omega
  · intro heq
    have haos := congrArg Pass.aos heq
    rw [mkPass_aos, mkPass_aos] at haos
    omega

/-- Witness for the amended C9 at a concrete single-arc oracle. -/
theorem gappy_same_crossings_witness :
    (scanPasses oracleArc 0 200000 3).length = 1 ∧
      (scanPasses (gappy oracleArc 0) 0 200000 3).length = 1 := by
  have h := gappy_same_crossings oracleArc arcElev 0 200000 24999 130000 3
    oracleArc_total oracleArc_singleArc (by norm_num) (by norm_num) (by norm_num)
  exact ⟨h.1, h.2.1⟩

end Srec
